import Mathlib

/-!
# httpgo: aggregator, stop condition, rate limiter and statistics

A shallow embedding of `internal/pkg/httpgo.go`, `internal/pkg/stat.go`,
`internal/pkg/limiter.go` and the JSON arguments of `internal/pkg/config.go`.

Modelling conventions.

* `time.Time` and `time.Duration` are integers counting nanoseconds; every clock
  read a function performs (`time.Since`, `time.Now`) is an explicit argument.
* Go `int`/`int64` counters are unbounded integers: they count requests and
  nanoseconds and stay far below `2^63`.
* `float64` values are rationals, so floating-point rounding is idealised; the
  results of `rpsResult` and `latencyResult` are of type `F64`, which adds the
  infinities and NaN that a division by zero yields.
* A critical section (`mut.Lock` ... `mut.Unlock`) is one atomic step, so a run of
  concurrent workers is the sequence of their calls in lock order.
* `close` of a closed channel panics in Go; a panic is the result `none`.
-/

namespace Httpgo

/-! ## Time -/

/-- Go `time.Second` in nanoseconds. -/
def Second : Int := 1000000000

/-- Go `time.Millisecond` in nanoseconds. -/
def Millisecond : Int := 1000000

/-- Go `Duration.Seconds`: `float64(d / Second) + float64(d % Second) / 1e9`. -/
def Seconds (d : Int) : ℚ :=
  ((Int.tdiv d Second : Int) : ℚ) + ((Int.tmod d Second : Int) : ℚ) / 1000000000

/-- Go `Duration.Microseconds`: `int64(d) / 1e3`, truncated toward zero. -/
def Microseconds (d : Int) : Int := Int.tdiv d 1000

/-- Go conversion `int(f)` of a float: truncation toward zero. -/
def toInt (q : ℚ) : Int := if 0 ≤ q then ⌊q⌋ else ⌈q⌉

/-! ## Go maps `map[string]int` -/

/-- Value stored under `k`, the zero value `0` when `k` is absent. -/
def mapGet : List (String × Int) → String → Int
  | [], _ => 0
  | (k', v) :: rest, k => if k' = k then v else mapGet rest k

/-- Store `v` under `k`, replacing the entry of `k` when there is one. -/
def mapSet : List (String × Int) → String → Int → List (String × Int)
  | [], k, v => [(k, v)]
  | (k', v') :: rest, k, v => if k' = k then (k, v) :: rest else (k', v') :: mapSet rest k v

/-- Sum of all counts held in the map. -/
def mapTotal (m : List (String × Int)) : Int := (m.map Prod.snd).sum

/-! ## Channels -/

/-- A `chan struct{}` that is only ever closed: all that is observed is whether
it is closed. -/
structure Chan where
  closed : Bool
deriving DecidableEq, Repr

/-- Go `close(ch)`: panics (`none`) on a closed channel. -/
def close (ch : Chan) : Option Chan :=
  if ch.closed then none else some { closed := true }

/-! ## Configuration (`config.go`, `constants.go`) -/

/-- The fields of `Config` read by the engine, the limiter and the aggregator. -/
structure Config where
  Connections : Int
  Count : Int
  Qps : Int
  Duration : Int
  Timeout : Int
  Url : String
  MaxRedirects : Int
  Debug : Bool
deriving DecidableEq, Repr

def DefaultConnections : Int := 128
def DefaultDuration : Int := Second * 10
def DefaultTimeout : Int := Second * 3
def DefaultMaxRedirects : Int := 30

/-! ## Rate limiter (`limiter.go`) -/

/-- The struct `tokenLimiter` without its mutex. -/
structure tokenLimiter where
  limit : ℚ
  burst : Int
  token : Int
  last : Int
deriving DecidableEq

/-- Go `newTokenLimiter`; `now` is the clock read by `time.Now()`. -/
def newTokenLimiter (qps : Int) (now : Int) : tokenLimiter :=
  { limit := (qps : ℚ), burst := qps, token := qps, last := now }

/-- Go `tokenLimiter.revoked`. -/
def tokenLimiter.revoked (t : tokenLimiter) (d : Int) : Int :=
  let sec : ℚ := ((Int.tdiv d Second : Int) : ℚ) * t.limit
  let nsec : ℚ := ((Int.tmod d Second : Int) : ℚ) * t.limit
  toInt (sec + nsec / 1000000000)

/-- Go `tokenLimiter.allow`; `tSince` is the clock read by `time.Since(t.last)`
and `tNow` the clock read by `time.Now()` when the call is admitted. -/
def tokenLimiter.allow (t : tokenLimiter) (tSince tNow : Int) : Bool × tokenLimiter :=
  let tok := t.token - t.revoked (tSince - t.last)
  let t1 : tokenLimiter := if tok < 0 then { t with token := 0 } else { t with token := tok }
  if t1.token < t1.burst then
    (true, { t1 with token := t1.token + 1, last := tNow })
  else
    (false, t1)

/-- The interface `limiter` with its two implementations. -/
inductive limiter where
  | nopeLimiter (b : Bool)
  | tokenLimiter (t : tokenLimiter)
deriving DecidableEq

/-- Dynamic dispatch of `allow`; `nopeLimiter.allow` returns `true`. -/
def limiter.allow : limiter → Int → Int → Bool × limiter
  | .nopeLimiter b, _, _ => (true, .nopeLimiter b)
  | .tokenLimiter t, tSince, tNow =>
    let r := t.allow tSince tNow
    (r.1, .tokenLimiter r.2)

/-! ## Aggregator (`stat.go`) -/

/-- The data fields of the struct `stat` (the terminal widgets, the buffer and
the shared throughput counter are left out). -/
structure stat where
  reqs : Int
  elapsed : Int
  code1xx : Int
  code2xx : Int
  code3xx : Int
  code4xx : Int
  code5xx : Int
  codeOthers : Int
  latencies : List Int
  rps : List ℚ
  errs : List (String × Int)
  url : String
  count : Int
  duration : Int
  connections : Int
  quitting : Bool
  done : Bool
deriving DecidableEq

/-- Go `newStat`: every data field has its zero value, `errs` is an empty map. -/
def newStat : stat :=
  { reqs := 0, elapsed := 0, code1xx := 0, code2xx := 0, code3xx := 0, code4xx := 0,
    code5xx := 0, codeOthers := 0, latencies := [], rps := [], errs := [], url := "",
    count := 0, duration := 0, connections := 0, quitting := false, done := false }

/-- Go `stat.appendCode`: `switch code / 100`. -/
def stat.appendCode (t : stat) (code : Int) : stat :=
  let c := Int.tdiv code 100
  if c = 1 then { t with code1xx := t.code1xx + 1 }
  else if c = 2 then { t with code2xx := t.code2xx + 1 }
  else if c = 3 then { t with code3xx := t.code3xx + 1 }
  else if c = 4 then { t with code4xx := t.code4xx + 1 }
  else if c = 5 then { t with code5xx := t.code5xx + 1 }
  else { t with codeOthers := t.codeOthers + 1 }

/-- Go `stat.appendRps`. -/
def stat.appendRps (t : stat) (rps : ℚ) : stat :=
  { t with rps := t.rps ++ [rps] }

/-- Go `stat.appendLatency`. -/
def stat.appendLatency (t : stat) (latency : Int) : stat :=
  { t with latencies := t.latencies ++ [Microseconds latency] }

/-- Go `stat.appendError`: `t.errs[err.Error()]++`; `err` is the message. -/
def stat.appendError (t : stat) (err : String) : stat :=
  { t with errs := mapSet t.errs err (mapGet t.errs err + 1) }

/-! ## Engine (`httpgo.go`) -/

/-- The struct `HttpGo`: `hasClient` says whether the field `client` is set. -/
structure HttpGo where
  c : Config
  hasClient : Bool
  limiter : limiter
  startTime : Int
  roundReqs : Int
  done : Bool
  doneChan : Chan
  stat : stat
deriving DecidableEq

/-- Go `New`. The zero `time.Time` of `startTime` is the clock value `0`. -/
def New (c : Config) : HttpGo :=
  let c1 := if c.Connections ≤ 0 then { c with Connections := DefaultConnections } else c
  let c2 := if c1.Duration ≤ 0 then { c1 with Duration := DefaultDuration } else c1
  let c3 := if c2.Timeout ≤ 0 then { c2 with Timeout := DefaultTimeout } else c2
  let c4 := if c3.MaxRedirects ≤ 0 then { c3 with MaxRedirects := DefaultMaxRedirects } else c3
  { c := c4,
    hasClient := false,
    limiter := .nopeLimiter false,
    startTime := 0,
    roundReqs := 0,
    done := false,
    doneChan := { closed := false },
    stat := { newStat with count := c4.Count, duration := c4.Duration,
                           connections := c4.Connections } }

/-- The bytes of a Go string. -/
def utf8 (s : String) : List UInt8 := (s.data.map String.utf8EncodeChar).flatten

/-- Go `strings.Index(s, sep) == -1`: `sep` occurs nowhere in `s`. -/
def noIndex : List UInt8 → List UInt8 → Bool
  | [], sep => !(sep.isPrefixOf [])
  | b :: bs, sep => !(sep.isPrefixOf (b :: bs)) && noIndex bs sep

/-- Go `addMissingSchemaAndHost`. -/
def addMissingSchemaAndHost (url : String) : String :=
  let b := utf8 url
  if !((utf8 "://").isPrefixOf b) && (utf8 ":").isPrefixOf b then
    "http://localhost" ++ url
  else if noIndex b (utf8 "://") && decide (b.length ≥ 2) then
    if b.get? 0 = some 47 && b.get? 1 != some 47 then "http://localhost" ++ url
    else if b.get? 0 != some 47 && b.get? 1 != some 47 then "http://" ++ url
    else url
  else url

/-- Go `HttpGo.init`. `tNow` is the clock read by `newTokenLimiter`; `newClient`
is the error returned by `newHttpClient` (`none` for `nil`), which builds the
request and the transport outside this model. -/
def HttpGo.init (p : HttpGo) (tNow : Int) (newClient : Option String) : Except String HttpGo :=
  if p.c.Url = "" then .error "缺少 URL 参数"
  else
    let url := addMissingSchemaAndHost p.c.Url
    let p1 : HttpGo := { p with c := { p.c with Url := url }, stat := { p.stat with url := url } }
    let p2 : HttpGo :=
      if p1.c.Qps > 0 then { p1 with limiter := .tokenLimiter (newTokenLimiter p1.c.Qps tNow) }
      else p1
    if p2.hasClient then .ok p2
    else
      match newClient with
      | none => .ok { p2 with hasClient := true }
      | some e => .error e

/-- First statement of Go `HttpGo.run`: `p.startTime = time.Now()`. -/
def HttpGo.run (p : HttpGo) (tNow : Int) : HttpGo :=
  { p with startTime := tNow }

/-- Go constant `interval`. -/
def interval : Int := Millisecond * 10

/-- Go `HttpGo.statistic`, the body of the critical section. `tSince` is the
clock read by `time.Since(p.startTime)` and `tNow` the clock read by
`time.Now()` when a round is flushed; `err` is `none` for `nil` and the message
of the error otherwise. The result is `none` when the call panics. -/
def HttpGo.statistic (p : HttpGo) (code latency : Int) (err : Option String)
    (tSince tNow : Int) : Option HttpGo :=
  if p.done then some p
  else
    let p1 : HttpGo :=
      match err with
      | some e => { p with stat := p.stat.appendError e }
      | none =>
        { p with roundReqs := p.roundReqs + 1,
                 stat := (({ p.stat with reqs := p.stat.reqs + 1 } : Httpgo.stat).appendCode code).appendLatency
                   latency }
    let elapsed := tSince - p1.startTime
    if p1.c.Count > 0 ∧ p1.stat.reqs = p1.c.Count then
      let p2 : HttpGo :=
        { p1 with stat := p1.stat.appendRps ((p1.roundReqs : ℚ) / Seconds elapsed), done := true }
      (close p2.doneChan).map fun ch => { p2 with doneChan := ch }
    else
      let p2 : HttpGo :=
        if elapsed ≥ interval then
          { p1 with stat := { p1.stat.appendRps ((p1.roundReqs : ℚ) / Seconds elapsed) with
                              elapsed := p1.stat.elapsed + elapsed },
                    startTime := tNow,
                    roundReqs := 0 }
        else p1
      if p2.c.Count ≤ 0 ∧ p2.stat.elapsed ≥ p2.c.Duration then
        (close p2.doneChan).map fun ch => { p2 with done := true, doneChan := ch }
      else some p2

/-- One call of `statistic` together with the clock values it reads. -/
structure Record where
  code : Int
  latency : Int
  err : Option String
  tSince : Int
  tNow : Int
deriving DecidableEq

/-- The calls of `statistic` made by the workers, in lock order. -/
def HttpGo.records : HttpGo → List Record → Option HttpGo
  | p, [] => some p
  | p, r :: rs =>
    match p.statistic r.code r.latency r.err r.tSince r.tNow with
    | none => none
    | some q => q.records rs

/-- The number of calls in `rs` that `statistic` runs past its `if p.done`
guard, that is, the calls made while `done` was still false. -/
def HttpGo.live : HttpGo → List Record → Nat
  | _, [] => 0
  | p, r :: rs =>
    match p.statistic r.code r.latency r.err r.tSince r.tNow with
    | none => 0
    | some q => (if p.done then 0 else 1) + q.live rs

/-! ## The blocks of `statistic`

The body of `statistic` cut into its blocks, which carry the field lemmas used
by the proofs; `statistic_eq` ties them to the function. -/

/-- The block `if err != nil { ... } else { ... }` of `statistic`. -/
def HttpGo.observe (p : HttpGo) (code latency : Int) : Option String → HttpGo
  | some e => { p with stat := p.stat.appendError e }
  | none =>
    { p with roundReqs := p.roundReqs + 1,
             stat := (({ p.stat with reqs := p.stat.reqs + 1 } : Httpgo.stat).appendCode
               code).appendLatency latency }

/-- The statement `p.appendRps(float64(p.roundReqs) / elapsed.Seconds())`. -/
def HttpGo.sample (p : HttpGo) (elapsed : Int) : HttpGo :=
  { p with stat := p.stat.appendRps ((p.roundReqs : ℚ) / Seconds elapsed) }

/-- The block run when `elapsed >= interval`. -/
def HttpGo.flush (p : HttpGo) (elapsed tNow : Int) : HttpGo :=
  { p with stat := { p.stat.appendRps ((p.roundReqs : ℚ) / Seconds elapsed) with
                     elapsed := p.stat.elapsed + elapsed },
           startTime := tNow,
           roundReqs := 0 }

/-- The statements `p.done = true; close(p.doneChan)`. -/
def HttpGo.stop (p : HttpGo) : Option HttpGo :=
  (close p.doneChan).map fun ch => { p with done := true, doneChan := ch }

/-- Successes recorded by one outcome: `1` without an error, `0` with one. -/
def nOk : Option String → Int
  | none => 1
  | some _ => 0

/-- Errors recorded by one outcome: `1` with an error, `0` without. -/
def nErr : Option String → Int
  | none => 0
  | some _ => 1

/-- The state left by `stop` when the channel was open. -/
def HttpGo.stopped (p : HttpGo) : HttpGo :=
  { p with done := true, doneChan := { closed := true } }

/-- The stop invariant: the channel is closed exactly when `done` is set, `done`
is set exactly when the stop condition of the configured mode holds, and in
count mode the success counter is at most the count. -/
def Inv (p : HttpGo) : Prop :=
  p.doneChan.closed = p.done ∧
  (p.done = true ↔
    (p.c.Count > 0 ∧ p.stat.reqs = p.c.Count) ∨
    (p.c.Count ≤ 0 ∧ p.stat.elapsed ≥ p.c.Duration)) ∧
  (p.c.Count > 0 → p.stat.reqs ≤ p.c.Count)

/-! ## Runs of the rate limiter -/

/-- A sequence of `allow` calls on one token limiter, each given as the pair of
clock values `(tSince, tNow)` it reads; the answers are returned in order. -/
def tokenLimiter.allows : tokenLimiter → List (Int × Int) → List Bool × tokenLimiter
  | t, [] => ([], t)
  | t, call :: rest =>
    let r := t.allow call.1 call.2
    let rs := r.2.allows rest
    (r.1 :: rs.1, rs.2)

/-- A sequence of `allow` calls through the interface `limiter`. -/
def limiter.allows : limiter → List (Int × Int) → List Bool × limiter
  | l, [] => ([], l)
  | l, call :: rest =>
    let r := l.allow call.1 call.2
    let rs := r.2.allows rest
    (r.1 :: rs.1, rs.2)

/-- Every call of the sequence sees a non-negative `time.Since(t.last)`. -/
def tokenLimiter.elapsedOk : tokenLimiter → List (Int × Int) → Prop
  | _, [] => True
  | t, call :: rest => t.last ≤ call.1 ∧ (t.allow call.1 call.2).2.elapsedOk rest

/-- The clock values read by the calls are non-decreasing, from `t` up to `T`. -/
def clockMono : Int → List (Int × Int) → Int → Prop
  | t, [], T => t ≤ T
  | t, call :: rest, T => t ≤ call.1 ∧ call.1 ≤ call.2 ∧ clockMono call.2 rest T

/-- The limiter fields fit the capacity `Q`: `limit = burst = Q` and
`0 <= token <= Q`. -/
def tokenLimiter.fits (t : tokenLimiter) (Q : Int) : Prop :=
  t.limit = (Q : ℚ) ∧ t.burst = Q ∧ 0 ≤ t.token ∧ t.token ≤ Q

/-- The sum of the six status-class buckets. -/
def stat.bucketTotal (t : stat) : Int :=
  t.code1xx + t.code2xx + t.code3xx + t.code4xx + t.code5xx + t.codeOthers

/-! ## Statistics (`stat.go`)

The samples are finite numbers, read as rationals. `math.Sqrt` is a library
function, a parameter `sqrt` of the two result functions. The one place where a
non-number can arise from finite samples is the division by `float64(l-1)`,
which is zero for a single sample; `F64` keeps these results apart. -/

/-- A `float64` result: a number, or what a division by zero yields. -/
inductive F64 where
  | num (q : ℚ)
  | posInf
  | negInf
  | nan
deriving DecidableEq

/-- Float division `x / y` of two numbers: by IEEE 754 a division by zero gives
an infinity of the sign of `x`, and `0 / 0` gives NaN. -/
def fdiv (x y : ℚ) : F64 :=
  if y ≠ 0 then .num (x / y)
  else if 0 < x then .posInf
  else if x < 0 then .negInf
  else .nan

/-- Go `math.Sqrt` on a result; `sqrt` is its value on non-negative numbers. -/
def fsqrt (sqrt : ℚ → ℚ) : F64 → F64
  | .num q => if q < 0 then .nan else .num (sqrt q)
  | .posInf => .posInf
  | .negInf => .nan
  | .nan => .nan

/-- Go `rpsResult`, returning `(avg, stdev, max)`. -/
def rpsResult (sqrt : ℚ → ℚ) (rps : List ℚ) : F64 × F64 × F64 :=
  let l := rps.length
  if l = 0 then (.num 0, .num 0, .num 0)
  else
    let sm : ℚ × ℚ :=
      rps.foldl (fun (acc : ℚ × ℚ) (r : ℚ) => (acc.1 + r, if r > acc.2 then r else acc.2)) (0, 0)
    let avg : ℚ := sm.1 / (l : ℚ)
    let sum2 : ℚ := rps.foldl (fun (acc : ℚ) (r : ℚ) => acc + (avg - r) * (avg - r)) 0
    (.num avg, fsqrt sqrt (fdiv sum2 ((((l : Int) - 1 : Int)) : ℚ)), .num sm.2)

/-- Go `latencyResult`, returning `(avg, stdev, max)`; the samples are
microseconds and `r := float64(latency) / 1000` is a sample in milliseconds. -/
def latencyResult (sqrt : ℚ → ℚ) (latencies : List Int) : F64 × F64 × F64 :=
  let l := latencies.length
  if l = 0 then (.num 0, .num 0, .num 0)
  else
    let sm : ℚ × ℚ :=
      latencies.foldl
        (fun (acc : ℚ × ℚ) (latency : Int) =>
          let r : ℚ := (latency : ℚ) / 1000
          (acc.1 + r, if r > acc.2 then r else acc.2)) (0, 0)
    let avg : ℚ := sm.1 / (l : ℚ)
    let sum2 : ℚ :=
      latencies.foldl
        (fun (acc : ℚ) (latency : Int) =>
          let r : ℚ := (latency : ℚ) / 1000
          acc + (avg - r) * (avg - r)) 0
    (.num avg, fsqrt sqrt (fdiv sum2 ((((l : Int) - 1 : Int)) : ℚ)), .num sm.2)

/-- A square root that is exact on the squares of rationals, an instance of
`math.Sqrt` for sample runs. -/
def ratSqrt (q : ℚ) : ℚ := (Nat.sqrt q.num.toNat : ℚ) / (Nat.sqrt q.den : ℚ)

/-- The fraction computed by Go `stat.writeProcessBar`, which the progress bar
then renders. `duration` is positive in every state built by `New`. -/
def stat.writeProcessBar (t : stat) : ℚ :=
  let percent : ℚ :=
    if t.count ≠ 0 then (t.reqs : ℚ) / (t.count : ℚ)
    else (t.elapsed : ℚ) / (t.duration : ℚ)
  if percent > 1 then 1 else percent

/-- Go `formatThroughput`. -/
def formatThroughput (throughput : ℚ) : ℚ × String :=
  if throughput < 1000 then (throughput, "B/s")
  else if throughput < 1000000 then (throughput / 1000, "KB/s")
  else if throughput < 1000000000 then (throughput / 1000000, "MB/s")
  else (throughput / 1000000000, "GB/s")

/-- The number of bytes per second one unit of `formatThroughput` stands for. -/
def unitMultiplier (unit : String) : ℚ :=
  if unit = "B/s" then 1
  else if unit = "KB/s" then 1000
  else if unit = "MB/s" then 1000000
  else 1000000000

/-! ## JSON arguments (`config.go`)

`strconv.Atoi` and `strconv.ParseFloat` are library functions: `needQuote` and
`buildJSONBody` take the tests `err == nil` of the two as the parameters `Atoi`
and `ParseFloat`. The text of an argument is split at characters, which
is the same as at bytes because `:=` is ASCII; `v[0]`, `v[l-1]` and `len(v)` are
taken on the bytes. -/

/-- Go `unicode.IsSpace`, the white space that `strings.TrimSpace` removes. -/
def isSpace (c : Char) : Bool :=
  decide (c.toNat = 9) || decide (c.toNat = 10) || decide (c.toNat = 11) ||
  decide (c.toNat = 12) || decide (c.toNat = 13) || decide (c.toNat = 32) ||
  decide (c.toNat = 0x85) || decide (c.toNat = 0xA0) || decide (c.toNat = 0x1680) ||
  (decide (0x2000 ≤ c.toNat) && decide (c.toNat ≤ 0x200a)) ||
  decide (c.toNat = 0x2028) || decide (c.toNat = 0x2029) || decide (c.toNat = 0x202f) ||
  decide (c.toNat = 0x205f) || decide (c.toNat = 0x3000)

/-- Go `strings.TrimSpace`. -/
def TrimSpace (s : List Char) : List Char :=
  ((s.dropWhile isSpace).reverse.dropWhile isSpace).reverse

/-- The cut made at `i := strings.Index(arg, ":=")`: `arg[:i]` and `arg[i+2:]`,
or `none` when `i == -1`. -/
def cutAssign : List Char → Option (List Char × List Char)
  | [] => none
  | c :: rest =>
    if c = ':' ∧ rest.head? = some '=' then some ([], rest.tail)
    else (cutAssign rest).map fun r => (c :: r.1, r.2)

/-- Go `strings.ToLower(v)` as far as the comparison with `true` and `false`
goes: the letters `A` to `Z` are lowered, every other character is kept. -/
def ToLower (v : String) : List Char := v.data.map Char.toLower

/-- Go `needQuote`. -/
def needQuote (Atoi ParseFloat : String → Bool) (v : String) : Bool :=
  if ToLower v = "false".data ∨ ToLower v = "true".data then false
  else if Atoi v then false
  else if ParseFloat v then false
  else
    let b := utf8 v
    let l := b.length
    if l ≤ 1 then true
    else if (b.get? 0 = some 91 ∧ b.get? (l - 1) = some 93) ∨
        (b.get? 0 = some 123 ∧ b.get? (l - 1) = some 125) then false
    else true

/-- The loop of Go `Config.buildJSONBody` from the argument of index `ii` on;
`n` is `len(c.Args)`. -/
def buildJSONArgs (Atoi ParseFloat : String → Bool) (n : Nat) :
    Nat → List String → List Char → List Char
  | _, [], body => body
  | ii, arg :: rest, body =>
    if arg = "" then buildJSONArgs Atoi ParseFloat n (ii + 1) rest body
    else
      match cutAssign arg.data with
      | none => buildJSONArgs Atoi ParseFloat n (ii + 1) rest body
      | some (ks, vs) =>
        if TrimSpace ks = [] then buildJSONArgs Atoi ParseFloat n (ii + 1) rest body
        else
          let b1 := body ++ [Char.ofNat 34] ++ TrimSpace ks ++ [Char.ofNat 34, ':']
          let b2 :=
            if needQuote Atoi ParseFloat (String.mk (TrimSpace vs)) then
              b1 ++ [Char.ofNat 34] ++ TrimSpace vs ++ [Char.ofNat 34]
            else b1 ++ TrimSpace vs
          let b3 := if (ii : Int) < (n : Int) - 1 then b2 ++ [','] else b2
          buildJSONArgs Atoi ParseFloat n (ii + 1) rest b3

/-- Go `Config.buildJSONBody`: the body built from `c.body` and `c.Args` (the
flag `c.JSON` it sets is left out). -/
def buildJSONBody (Atoi ParseFloat : String → Bool) (body : List Char) (Args : List String) :
    List Char :=
  buildJSONArgs Atoi ParseFloat Args.length 0 Args (body ++ [Char.ofNat 123]) ++ [Char.ofNat 125]

/-! ## Sample runs -/

/-- Count mode: stop after two successes. -/
def cfgCount : Config :=
  { Connections := 2, Count := 2, Qps := 0, Duration := 0, Timeout := 0, Url := ":8080",
    MaxRedirects := 0, Debug := false }

/-- Duration mode: stop after 200 ms. -/
def cfgDuration : Config :=
  { Connections := 2, Count := 0, Qps := 0, Duration := 200 * Millisecond, Timeout := 0,
    Url := ":8080", MaxRedirects := 0, Debug := false }

/-- The state `init` leaves for `cfg`, whose URL is `:8080` and whose `Qps` is 0. -/
def startOf (cfg : Config) : HttpGo :=
  { (New cfg) with
      c := { (New cfg).c with Url := "http://localhost:8080" },
      stat := { (New cfg).stat with url := "http://localhost:8080" },
      hasClient := true }

/-- A negative count with a duration of 200 ms. -/
def cfgNegative : Config :=
  { Connections := 2, Count := -1, Qps := 0, Duration := 200 * Millisecond, Timeout := 0,
    Url := ":8080", MaxRedirects := 0, Debug := false }

/-- A rate limit of 5 per second together with a count of 2 and a duration of
10 s. -/
def cfgQps : Config :=
  { Connections := 2, Count := 2, Qps := 5, Duration := 10 * Second, Timeout := 0,
    Url := ":8080", MaxRedirects := 0, Debug := false }

/-- The state `init` leaves for `cfgQps` when the limiter is created at clock
value 0. -/
def startQps : HttpGo :=
  { (New cfgQps) with
      c := { (New cfgQps).c with Url := "http://localhost:8080" },
      stat := { (New cfgQps).stat with url := "http://localhost:8080" },
      limiter := .tokenLimiter (newTokenLimiter 5 0),
      hasClient := true }

/-- A `200` answer after 1.5 ms, recorded at clock value `t`. -/
def okAt (t : Int) : Record :=
  { code := 200, latency := 1500000, err := none, tSince := t, tNow := t }

/-- A failed request recorded at clock value `t`. -/
def errAt (t : Int) : Record :=
  { code := 0, latency := 0, err := some "dial timeout", tSince := t, tNow := t }

/-! ## Field lemmas for the aggregator operations -/

@[simp] theorem appendCode_reqs (t : stat) (code : Int) : (t.appendCode code).reqs = t.reqs := by
  unfold stat.appendCode; simp only []; split_ifs <;> rfl

@[simp] theorem appendCode_elapsed (t : stat) (code : Int) :
    (t.appendCode code).elapsed = t.elapsed := by
  unfold stat.appendCode; simp only []; split_ifs <;> rfl

@[simp] theorem appendCode_errs (t : stat) (code : Int) : (t.appendCode code).errs = t.errs := by
  unfold stat.appendCode; simp only []; split_ifs <;> rfl

@[simp] theorem appendCode_latencies (t : stat) (code : Int) :
    (t.appendCode code).latencies = t.latencies := by
  unfold stat.appendCode; simp only []; split_ifs <;> rfl

@[simp] theorem appendCode_rps (t : stat) (code : Int) : (t.appendCode code).rps = t.rps := by
  unfold stat.appendCode; simp only []; split_ifs <;> rfl

@[simp] theorem appendLatency_reqs (t : stat) (l : Int) : (t.appendLatency l).reqs = t.reqs := rfl

@[simp] theorem appendLatency_elapsed (t : stat) (l : Int) :
    (t.appendLatency l).elapsed = t.elapsed := rfl

@[simp] theorem appendLatency_errs (t : stat) (l : Int) : (t.appendLatency l).errs = t.errs := rfl

@[simp] theorem appendRps_reqs (t : stat) (r : ℚ) : (t.appendRps r).reqs = t.reqs := rfl

@[simp] theorem appendRps_elapsed (t : stat) (r : ℚ) : (t.appendRps r).elapsed = t.elapsed := rfl

@[simp] theorem appendRps_errs (t : stat) (r : ℚ) : (t.appendRps r).errs = t.errs := rfl

@[simp] theorem appendError_reqs (t : stat) (e : String) : (t.appendError e).reqs = t.reqs := rfl

@[simp] theorem appendError_elapsed (t : stat) (e : String) :
    (t.appendError e).elapsed = t.elapsed := rfl

@[simp] theorem appendError_errs (t : stat) (e : String) :
    (t.appendError e).errs = mapSet t.errs e (mapGet t.errs e + 1) := rfl

/-! ## Map lemmas -/

theorem mapGet_mapSet_self (m : List (String × Int)) (k : String) (v : Int) :
    mapGet (mapSet m k v) k = v := by
  induction m with
  | nil => simp [mapSet, mapGet]
  | cons a rest ih =>
    obtain ⟨k', v'⟩ := a
    by_cases h : k' = k
    · simp [mapSet, mapGet, h]
    · simp [mapSet, mapGet, h, ih]

theorem mapGet_mapSet_other (m : List (String × Int)) (k k' : String) (v : Int) (h : k' ≠ k) :
    mapGet (mapSet m k v) k' = mapGet m k' := by
  induction m with
  | nil => simp [mapSet, mapGet, Ne.symm h]
  | cons a rest ih =>
    obtain ⟨k0, v0⟩ := a
    by_cases h0 : k0 = k
    · subst h0
      simp [mapSet, mapGet, Ne.symm h]
    · simp [mapSet, mapGet, h0, ih]

theorem mapTotal_mapSet (m : List (String × Int)) (k : String) (v : Int) :
    mapTotal (mapSet m k v) = mapTotal m - mapGet m k + v := by
  induction m with
  | nil => simp [mapSet, mapGet, mapTotal]
  | cons a rest ih =>
    obtain ⟨k0, v0⟩ := a
    by_cases h0 : k0 = k
    · simp [mapSet, mapGet, mapTotal, h0]
      ring
    · simp only [mapTotal] at ih
      simp [mapSet, mapGet, mapTotal, h0, ih]
      ring

/-! ## One call of `statistic` -/

theorem statistic_eq (p : HttpGo) (code latency : Int) (err : Option String)
    (tSince tNow : Int) :
    p.statistic code latency err tSince tNow =
      if p.done then some p
      else
        if p.c.Count > 0 ∧ (p.observe code latency err).stat.reqs = p.c.Count then
          ((p.observe code latency err).sample (tSince - p.startTime)).stop
        else if tSince - p.startTime ≥ interval then
          if p.c.Count ≤ 0 ∧
              ((p.observe code latency err).flush (tSince - p.startTime) tNow).stat.elapsed
                ≥ p.c.Duration then
            ((p.observe code latency err).flush (tSince - p.startTime) tNow).stop
          else some ((p.observe code latency err).flush (tSince - p.startTime) tNow)
        else
          if p.c.Count ≤ 0 ∧ (p.observe code latency err).stat.elapsed ≥ p.c.Duration then
            (p.observe code latency err).stop
          else some (p.observe code latency err) := by
  cases err <;>
    (simp only [HttpGo.statistic, HttpGo.observe, HttpGo.sample, HttpGo.flush, HttpGo.stop]
     split_ifs <;> rfl)

theorem stop_open (p : HttpGo) (h : p.doneChan.closed = false) : p.stop = some p.stopped := by
  simp [HttpGo.stop, HttpGo.stopped, close, h]

theorem stop_closed (p : HttpGo) (h : p.doneChan.closed = true) : p.stop = none := by
  simp [HttpGo.stop, close, h]

@[simp] theorem stopped_c (p : HttpGo) : p.stopped.c = p.c := rfl
@[simp] theorem stopped_done (p : HttpGo) : p.stopped.done = true := rfl
@[simp] theorem stopped_closed (p : HttpGo) : p.stopped.doneChan.closed = true := rfl
@[simp] theorem stopped_stat (p : HttpGo) : p.stopped.stat = p.stat := rfl
@[simp] theorem stopped_roundReqs (p : HttpGo) : p.stopped.roundReqs = p.roundReqs := rfl
@[simp] theorem stopped_startTime (p : HttpGo) : p.stopped.startTime = p.startTime := rfl

@[simp] theorem observe_c (p : HttpGo) (code latency : Int) (err : Option String) :
    (p.observe code latency err).c = p.c := by cases err <;> rfl
@[simp] theorem observe_done (p : HttpGo) (code latency : Int) (err : Option String) :
    (p.observe code latency err).done = p.done := by cases err <;> rfl
@[simp] theorem observe_doneChan (p : HttpGo) (code latency : Int) (err : Option String) :
    (p.observe code latency err).doneChan = p.doneChan := by cases err <;> rfl
@[simp] theorem observe_startTime (p : HttpGo) (code latency : Int) (err : Option String) :
    (p.observe code latency err).startTime = p.startTime := by cases err <;> rfl
@[simp] theorem observe_reqs (p : HttpGo) (code latency : Int) (err : Option String) :
    (p.observe code latency err).stat.reqs = p.stat.reqs + nOk err := by
  cases err <;> simp [HttpGo.observe, nOk]
@[simp] theorem observe_elapsed (p : HttpGo) (code latency : Int) (err : Option String) :
    (p.observe code latency err).stat.elapsed = p.stat.elapsed := by
  cases err <;> simp [HttpGo.observe]
theorem observe_errs_total (p : HttpGo) (code latency : Int) (err : Option String) :
    mapTotal (p.observe code latency err).stat.errs
      = mapTotal p.stat.errs + nErr err := by
  cases err
  · simp [HttpGo.observe, nErr]
  · simp only [HttpGo.observe, appendError_errs, mapTotal_mapSet, nErr]
    ring

@[simp] theorem sample_c (p : HttpGo) (e : Int) : (p.sample e).c = p.c := rfl
@[simp] theorem sample_done (p : HttpGo) (e : Int) : (p.sample e).done = p.done := rfl
@[simp] theorem sample_doneChan (p : HttpGo) (e : Int) : (p.sample e).doneChan = p.doneChan := rfl
@[simp] theorem sample_reqs (p : HttpGo) (e : Int) : (p.sample e).stat.reqs = p.stat.reqs := rfl
@[simp] theorem sample_elapsed (p : HttpGo) (e : Int) :
    (p.sample e).stat.elapsed = p.stat.elapsed := rfl
@[simp] theorem sample_errs (p : HttpGo) (e : Int) : (p.sample e).stat.errs = p.stat.errs := rfl
@[simp] theorem sample_roundReqs (p : HttpGo) (e : Int) : (p.sample e).roundReqs = p.roundReqs := rfl

@[simp] theorem flush_c (p : HttpGo) (e t : Int) : (p.flush e t).c = p.c := rfl
@[simp] theorem flush_done (p : HttpGo) (e t : Int) : (p.flush e t).done = p.done := rfl
@[simp] theorem flush_doneChan (p : HttpGo) (e t : Int) : (p.flush e t).doneChan = p.doneChan := rfl
@[simp] theorem flush_reqs (p : HttpGo) (e t : Int) : (p.flush e t).stat.reqs = p.stat.reqs := rfl
@[simp] theorem flush_elapsed (p : HttpGo) (e t : Int) :
    (p.flush e t).stat.elapsed = p.stat.elapsed + e := rfl
@[simp] theorem flush_errs (p : HttpGo) (e t : Int) : (p.flush e t).stat.errs = p.stat.errs := rfl
@[simp] theorem flush_roundReqs (p : HttpGo) (e t : Int) : (p.flush e t).roundReqs = 0 := rfl
@[simp] theorem flush_startTime (p : HttpGo) (e t : Int) : (p.flush e t).startTime = t := rfl

theorem statistic_done (p : HttpGo) (code latency : Int) (err : Option String)
    (tSince tNow : Int) (h : p.done = true) :
    p.statistic code latency err tSince tNow = some p := by
  simp [HttpGo.statistic, h]

theorem records_done (p : HttpGo) (rs : List Record) (h : p.done = true) :
    p.records rs = some p := by
  induction rs with
  | nil => rfl
  | cons r rs ih => simp [HttpGo.records, statistic_done _ _ _ _ _ _ h, ih]

/-- The facts about one call in a state that is not done and whose channel is
open, as far as the stop condition is concerned. -/
theorem statistic_step (p : HttpGo) (code latency : Int) (err : Option String)
    (tSince tNow : Int) (hd : p.done = false) (hc : p.doneChan.closed = false) :
    ∃ s, p.statistic code latency err tSince tNow = some s ∧
      s.c = p.c ∧ s.doneChan.closed = s.done ∧
      s.stat.reqs = p.stat.reqs + nOk err ∧
      mapTotal s.stat.errs = mapTotal p.stat.errs + nErr err ∧
      p.stat.elapsed ≤ s.stat.elapsed ∧
      (s.done = true ↔
        (p.c.Count > 0 ∧ s.stat.reqs = p.c.Count) ∨
        (p.c.Count ≤ 0 ∧ s.stat.elapsed ≥ p.c.Duration)) := by
  rw [statistic_eq]
  simp only [hd, Bool.false_eq_true, if_false]
  split_ifs with h1 h2 h3 h3
  · rw [stop_open _ (by simpa using hc)]
    refine ⟨_, rfl, ?_⟩
    simp only [observe_reqs] at h1
    simp [observe_errs_total, h1]
  · rw [stop_open _ (by simpa using hc)]
    refine ⟨_, rfl, ?_⟩
    simp only [flush_elapsed, observe_elapsed] at h3
    simp only [interval, Millisecond] at h2
    simp [observe_errs_total, h3]
    omega
  · refine ⟨_, rfl, ?_⟩
    simp only [flush_elapsed, observe_elapsed, observe_reqs] at h1 h3
    simp only [interval, Millisecond] at h2
    simp [observe_errs_total, hd, hc]
    refine ⟨by omega, ?_, ?_⟩
    · intro h; simpa using fun h' => h1 ⟨h, h'⟩
    · intro h; simpa using fun h' => h3 ⟨h, h'⟩
  · rw [stop_open _ (by simpa using hc)]
    refine ⟨_, rfl, ?_⟩
    simp only [observe_elapsed] at h3
    simp [observe_errs_total, h3]
  · refine ⟨_, rfl, ?_⟩
    simp only [observe_elapsed, observe_reqs] at h1 h3
    simp [observe_errs_total, hd, hc]
    refine ⟨?_, ?_⟩
    · intro h; simpa using fun h' => h1 ⟨h, h'⟩
    · intro h; simpa using fun h' => h3 ⟨h, h'⟩

/-! ## The state in which the workers start -/

theorem New_Count (c : Config) : (New c).c.Count = c.Count := by
  simp only [New]; split_ifs <;> rfl

theorem New_Qps (c : Config) : (New c).c.Qps = c.Qps := by
  simp only [New]; split_ifs <;> rfl

theorem New_Duration (c : Config) :
    (New c).c.Duration = (if c.Duration ≤ 0 then DefaultDuration else c.Duration) := by
  simp only [New]; split_ifs <;> rfl

/-- What `init` changes: the URL, the limiter and the client. -/
theorem init_eq (p p0 : HttpGo) (tInit : Int) (newClient : Option String)
    (h0 : p.init tInit newClient = .ok p0) :
    p0 = { p with
      c := { p.c with Url := addMissingSchemaAndHost p.c.Url },
      stat := { p.stat with url := addMissingSchemaAndHost p.c.Url },
      limiter := if p.c.Qps > 0 then .tokenLimiter (newTokenLimiter p.c.Qps tInit) else p.limiter,
      hasClient := true } := by
  unfold HttpGo.init at h0
  by_cases hu : p.c.Url = ""
  · simp [hu] at h0
  · by_cases hq : p.c.Qps > 0 <;> by_cases hcl : p.hasClient = true <;> cases newClient <;>
      simp [hu, hq, hcl] at h0 <;> simp [← h0, hq, hcl]

theorem init_ok (c : Config) (tInit : Int) (newClient : Option String) (p0 : HttpGo)
    (h0 : (New c).init tInit newClient = .ok p0) :
    p0.done = false ∧ p0.doneChan.closed = false ∧ p0.stat.reqs = 0 ∧ p0.stat.elapsed = 0 ∧
      p0.stat.errs = [] ∧ p0.c.Count = c.Count ∧ p0.c.Qps = c.Qps ∧
      p0.c.Duration = (if c.Duration ≤ 0 then DefaultDuration else c.Duration) := by
  have h := init_eq _ _ _ _ h0
  subst h
  refine ⟨rfl, rfl, rfl, rfl, rfl, ?_, ?_, ?_⟩
  · exact New_Count c
  · exact New_Qps c
  · exact New_Duration c

theorem nOk_le (err : Option String) : nOk err ≤ 1 := by cases err <;> simp [nOk]

theorem nOk_add_nErr (err : Option String) : nOk err + nErr err = 1 := by
  cases err <;> simp [nOk, nErr]

theorem Inv_start (c : Config) (tInit : Int) (newClient : Option String) (p0 : HttpGo)
    (h0 : (New c).init tInit newClient = .ok p0) (tRun : Int) : Inv (p0.run tRun) := by
  obtain ⟨hd, hc, hr, he, -, hC, -, hD⟩ := init_ok c tInit newClient p0 h0
  have hD0 : 0 < p0.c.Duration := by
    rw [hD]; split_ifs with h
    · simp [DefaultDuration, Second]
    · omega
  refine ⟨?_, ?_, ?_⟩
  · show p0.doneChan.closed = p0.done
    rw [hd, hc]
  · show p0.done = true ↔ _
    simp only [HttpGo.run, hd, hr, he]
    simp only [Bool.false_eq_true, false_iff]
    omega
  · show p0.c.Count > 0 → p0.stat.reqs ≤ p0.c.Count
    rw [hr]; omega

theorem Inv_statistic (p : HttpGo) (hI : Inv p) (code latency : Int) (err : Option String)
    (tSince tNow : Int) :
    ∃ s, p.statistic code latency err tSince tNow = some s ∧ s.c = p.c ∧ Inv s ∧
      s.stat.reqs + mapTotal s.stat.errs
        = p.stat.reqs + mapTotal p.stat.errs + (if p.done then 0 else 1) := by
  obtain ⟨hcl, hdone, hle⟩ := hI
  by_cases hd : p.done = true
  · exact ⟨p, statistic_done _ _ _ _ _ _ hd, rfl, ⟨hcl, hdone, hle⟩, by simp [hd]⟩
  · have hd' : p.done = false := by simpa using hd
    obtain ⟨s, hs, hc, hcd, hreq, herr, -, hiff⟩ :=
      statistic_step p code latency err tSince tNow hd' (by rw [hcl, hd'])
    refine ⟨s, hs, hc, ⟨hcd, ?_, ?_⟩, ?_⟩
    · rw [hc]; exact hiff
    · rw [hc, hreq]
      intro hpos
      have h1 := hle hpos
      have h2 : ¬ p.stat.reqs = p.c.Count := fun h => hd (hdone.2 (Or.inl ⟨hpos, h⟩))
      have h3 := nOk_le err
      omega
    · have h3 := nOk_add_nErr err
      rw [hreq, herr]
      simp only [hd', Bool.false_eq_true, if_false]
      omega

theorem Inv_records (p : HttpGo) (hI : Inv p) (rs : List Record) :
    ∃ s, p.records rs = some s ∧ s.c = p.c ∧ Inv s ∧
      s.stat.reqs + mapTotal s.stat.errs
        = p.stat.reqs + mapTotal p.stat.errs + (p.live rs : Int) := by
  induction rs generalizing p with
  | nil => exact ⟨p, rfl, rfl, hI, by simp [HttpGo.live]⟩
  | cons r rs ih =>
    obtain ⟨q, hq, hqc, hqI, hqn⟩ := Inv_statistic p hI r.code r.latency r.err r.tSince r.tNow
    obtain ⟨s, hs, hsc, hsI, hsn⟩ := ih q hqI
    refine ⟨s, ?_, hsc.trans hqc, hsI, ?_⟩
    · simp [HttpGo.records, hq, hs]
    · simp only [HttpGo.live, hq]
      rw [hsn, hqn]
      split_ifs <;> push_cast <;> ring

theorem records_append (p : HttpGo) (rs1 rs2 : List Record) :
    p.records (rs1 ++ rs2) = (p.records rs1).bind fun s => s.records rs2 := by
  induction rs1 generalizing p with
  | nil => rfl
  | cons r rs ih =>
    simp only [List.cons_append, HttpGo.records]
    cases p.statistic r.code r.latency r.err r.tSince r.tNow with
    | none => rfl
    | some q => exact ih q

/-- C1. Count mode cap: with a configured count `C > 0`, after every sequence of
`statistic` calls from the state in which the workers start, the call sequence
has returned a state, its success counter `reqs` is at most `C`, and `done` is
set exactly when `reqs = C`. -/
theorem count_mode_cap (c : Config) (hC : c.Count > 0) (tInit : Int)
    (newClient : Option String) (p0 : HttpGo)
    (h0 : (New c).init tInit newClient = .ok p0) (tRun : Int) (rs : List Record) :
    ∃ s, (p0.run tRun).records rs = some s ∧
      s.stat.reqs ≤ c.Count ∧ (s.done = true ↔ s.stat.reqs = c.Count) := by
  obtain ⟨s, hs, hc, ⟨-, hdone, hle⟩, -⟩ := Inv_records _ (Inv_start c tInit newClient p0 h0 tRun) rs
  have hcount : s.c.Count = c.Count := by
    rw [hc]; exact (init_ok c tInit newClient p0 h0).2.2.2.2.2.1
  rw [hcount] at hdone hle
  refine ⟨s, hs, hle hC, ?_⟩
  rw [hdone]
  constructor
  · rintro (h | h)
    · exact h.2
    · omega
  · intro h; exact Or.inl ⟨hC, h⟩

theorem count_mode_cap_witness :
    ∃ s, ((startOf cfgCount).run 0).records [okAt 1, errAt 2, okAt 3, okAt 4] = some s ∧
      s.stat.reqs ≤ cfgCount.Count ∧ (s.done = true ↔ s.stat.reqs = cfgCount.Count) :=
  count_mode_cap cfgCount (by decide) 0 none (startOf cfgCount) (by rfl) 0
    [okAt 1, errAt 2, okAt 3, okAt 4]

theorem live_le (p : HttpGo) (rs : List Record) : p.live rs ≤ rs.length := by
  induction rs generalizing p with
  | nil => simp [HttpGo.live]
  | cons r rs ih =>
    simp only [HttpGo.live, List.length_cons]
    cases p.statistic r.code r.latency r.err r.tSince r.tNow with
    | none => simp
    | some q =>
      have := ih q
      simp only []
      split_ifs <;> omega

theorem live_of_not_done (p : HttpGo) (hI : Inv p) (rs : List Record) (s : HttpGo)
    (hs : p.records rs = some s) (hd : s.done = false) : p.live rs = rs.length := by
  induction rs generalizing p with
  | nil => simp [HttpGo.live]
  | cons r rs ih =>
    have hp : p.done = false := by
      by_contra h
      have h' : p.done = true := by simpa using h
      rw [records_done p _ h'] at hs
      injection hs with hs
      rw [← hs, h'] at hd
      exact Bool.noConfusion hd
    obtain ⟨q, hq, -, hqI, -⟩ := Inv_statistic p hI r.code r.latency r.err r.tSince r.tNow
    simp only [HttpGo.records, hq] at hs
    simp only [HttpGo.live, hq, hp, List.length_cons, ih q hqI hs]
    simp
    omega

/-- C2. Exactly-once termination: every sequence of `statistic` calls from the
state in which the workers start returns a state (no call closes a closed
channel, which would panic), the channel is closed exactly when `done` is set,
and once `done` is set every further call returns the state unchanged, so that
`done` never goes back and the channel is not closed again. -/
theorem exactly_once_termination (c : Config) (tInit : Int) (newClient : Option String)
    (p0 : HttpGo) (h0 : (New c).init tInit newClient = .ok p0) (tRun : Int)
    (rs rs' : List Record) :
    ∃ s, (p0.run tRun).records rs = some s ∧ s.doneChan.closed = s.done ∧
      (s.done = true →
        (∀ code latency err tSince tNow, s.statistic code latency err tSince tNow = some s) ∧
        (p0.run tRun).records (rs ++ rs') = some s) ∧
      (s.done = false → ∀ code latency err tSince tNow,
        ∃ s', s.statistic code latency err tSince tNow = some s' ∧
          s'.doneChan.closed = s'.done) := by
  obtain ⟨s, hs, -, hI, -⟩ := Inv_records _ (Inv_start c tInit newClient p0 h0 tRun) rs
  refine ⟨s, hs, hI.1, ?_, ?_⟩
  · intro hd
    refine ⟨fun code latency err tSince tNow => statistic_done s code latency err tSince tNow hd, ?_⟩
    rw [records_append, hs]
    exact records_done s rs' hd
  · intro _ code latency err tSince tNow
    obtain ⟨s', hs', -, hI', -⟩ := Inv_statistic s hI code latency err tSince tNow
    exact ⟨s', hs', hI'.1⟩

theorem exactly_once_termination_witness :
    ∃ s, ((startOf cfgCount).run 0).records [okAt 1, okAt 2] = some s ∧
      s.doneChan.closed = s.done ∧
      (s.done = true →
        (∀ code latency err tSince tNow, s.statistic code latency err tSince tNow = some s) ∧
        ((startOf cfgCount).run 0).records ([okAt 1, okAt 2] ++ [okAt 3, errAt 4]) = some s) ∧
      (s.done = false → ∀ code latency err tSince tNow,
        ∃ s', s.statistic code latency err tSince tNow = some s' ∧
          s'.doneChan.closed = s'.done) :=
  exactly_once_termination cfgCount 0 none (startOf cfgCount) (by rfl) 0 [okAt 1, okAt 2]
    [okAt 3, errAt 4]

/-- C3, as stated, fails: in count mode with `Count = 2`, three successful calls
leave `reqs + errors = 2`, not `3`, because the third call finds `done` set and
records nothing. -/
theorem no_lost_updates_counterexample :
    (New cfgCount).init 0 none = .ok (startOf cfgCount) ∧
    (((startOf cfgCount).run 0).records [okAt 1, okAt 2, okAt 3]).map
        (fun s => s.stat.reqs + mapTotal s.stat.errs) = some 2 ∧
    ([okAt 1, okAt 2, okAt 3].length : Int) = 3 :=
  ⟨by rfl, by decide, by decide⟩

/-- C3, amended. No lost updates while running: after every sequence of
`statistic` calls the success counter plus the sum of the error histogram equals
the number of calls made while `done` was false; that number is the number of
all calls when `done` is still false at the end, and never more than it. -/
theorem no_lost_updates_live (c : Config) (tInit : Int) (newClient : Option String)
    (p0 : HttpGo) (h0 : (New c).init tInit newClient = .ok p0) (tRun : Int)
    (rs : List Record) :
    ∃ s, (p0.run tRun).records rs = some s ∧
      s.stat.reqs + mapTotal s.stat.errs = ((p0.run tRun).live rs : Int) ∧
      (p0.run tRun).live rs ≤ rs.length ∧
      (s.done = false → s.stat.reqs + mapTotal s.stat.errs = (rs.length : Int)) := by
  have hI := Inv_start c tInit newClient p0 h0 tRun
  obtain ⟨hd, hc, hr, he, herr, -⟩ := init_ok c tInit newClient p0 h0
  obtain ⟨s, hs, -, -, hn⟩ := Inv_records _ hI rs
  have h0n : (p0.run tRun).stat.reqs + mapTotal (p0.run tRun).stat.errs = 0 := by
    show p0.stat.reqs + mapTotal p0.stat.errs = 0
    rw [hr, herr]; rfl
  have hsum : s.stat.reqs + mapTotal s.stat.errs = ((p0.run tRun).live rs : Int) := by
    rw [hn, h0n]; ring
  refine ⟨s, hs, hsum, live_le _ rs, ?_⟩
  intro hsd
  rw [hsum, live_of_not_done _ hI rs s hs hsd]

theorem no_lost_updates_live_witness :
    ∃ s, ((startOf cfgCount).run 0).records [okAt 1, errAt 2, okAt 3, okAt 4] = some s ∧
      s.stat.reqs + mapTotal s.stat.errs
        = (((startOf cfgCount).run 0).live [okAt 1, errAt 2, okAt 3, okAt 4] : Int) ∧
      ((startOf cfgCount).run 0).live [okAt 1, errAt 2, okAt 3, okAt 4]
        ≤ [okAt 1, errAt 2, okAt 3, okAt 4].length ∧
      (s.done = false → s.stat.reqs + mapTotal s.stat.errs
        = ([okAt 1, errAt 2, okAt 3, okAt 4].length : Int)) :=
  no_lost_updates_live cfgCount 0 none (startOf cfgCount) (by rfl) 0
    [okAt 1, errAt 2, okAt 3, okAt 4]

/-- C4. Duration mode termination: with a count `<= 0` and a duration `D > 0`,
every sequence of `statistic` calls from the state in which the workers start
returns a state in which `done` is set if and only if the accumulated `elapsed`
is at least `D`. -/
theorem duration_mode_termination (c : Config) (hC : c.Count ≤ 0) (hD : c.Duration > 0)
    (tInit : Int) (newClient : Option String) (p0 : HttpGo)
    (h0 : (New c).init tInit newClient = .ok p0) (tRun : Int) (rs : List Record) :
    ∃ s, (p0.run tRun).records rs = some s ∧
      (s.done = true ↔ s.stat.elapsed ≥ c.Duration) := by
  obtain ⟨s, hs, hc, ⟨-, hdone, -⟩, -⟩ :=
    Inv_records _ (Inv_start c tInit newClient p0 h0 tRun) rs
  obtain ⟨-, -, -, -, -, hcount, -, hdur⟩ := init_ok c tInit newClient p0 h0
  have hcount' : s.c.Count = c.Count := by rw [hc]; exact hcount
  have hdur' : s.c.Duration = c.Duration := by
    rw [hc]; show p0.c.Duration = _
    rw [hdur, if_neg (by omega)]
  rw [hcount', hdur'] at hdone
  refine ⟨s, hs, ?_⟩
  rw [hdone]
  constructor
  · rintro (h | h)
    · omega
    · exact h.2
  · intro h; exact Or.inr ⟨hC, h⟩

theorem duration_mode_termination_witness :
    ∃ s, ((startOf cfgDuration).run 0).records
        [okAt 150000000, errAt 160000000, okAt 210000000, okAt 300000000] = some s ∧
      (s.done = true ↔ s.stat.elapsed ≥ cfgDuration.Duration) :=
  duration_mode_termination cfgDuration (by decide) (by decide) 0 none (startOf cfgDuration)
    (by rfl) 0 [okAt 150000000, errAt 160000000, okAt 210000000, okAt 300000000]

/-! ## Rate limiter -/

/-- With a non-negative elapsed time, `revoked` is the integer quotient of
`d * Q` by one second. -/
theorem revoked_eq (t : tokenLimiter) (Q d : Int) (hl : t.limit = (Q : ℚ)) (hQ : 0 ≤ Q)
    (hd : 0 ≤ d) : t.revoked d = d * Q / Second := by
  have hS : (0 : Int) ≤ Second := by simp [Second]
  have h1 : Int.tdiv d Second = d / Second := Int.tdiv_eq_ediv hd hS
  have h2 : Int.tmod d Second = d % Second := Int.tmod_eq_emod hd hS
  have hm : 0 ≤ d % Second := Int.emod_nonneg d (by simp [Second])
  have hq : 0 ≤ d / Second := Int.ediv_nonneg hd hS
  have key : ((d / Second : Int) : ℚ) * (Q : ℚ) + ((d % Second : Int) : ℚ) * (Q : ℚ) / 1000000000
      = (((d / Second * Q : Int) : ℚ))
        + (((d % Second * Q : Int) : ℚ)) / ((1000000000 : ℕ) : ℚ) := by
    push_cast; ring
  have hnn : (0 : ℚ) ≤ (((d / Second * Q : Int) : ℚ))
      + (((d % Second * Q : Int) : ℚ)) / ((1000000000 : ℕ) : ℚ) := by
    have a1 : (0 : ℚ) ≤ ((d / Second * Q : Int) : ℚ) := by exact_mod_cast Int.mul_nonneg hq hQ
    have a2 : (0 : ℚ) ≤ ((d % Second * Q : Int) : ℚ) := by exact_mod_cast Int.mul_nonneg hm hQ
    positivity
  unfold tokenLimiter.revoked toInt
  simp only [hl, h1, h2, key, if_pos hnn]
  rw [Int.floor_int_add, Rat.floor_intCast_div_natCast]
  have hd' : d * Q = d % Second * Q + Second * (d / Second * Q) := by
    have := Int.emod_add_ediv d Second
    calc d * Q = (d % Second + Second * (d / Second)) * Q := by rw [this]
      _ = _ := by ring
  rw [hd', Int.add_mul_ediv_left _ _ (by simp [Second] : Second ≠ 0)]
  simp [Second]
  ring

theorem revoked_nonneg (t : tokenLimiter) (Q d : Int) (hl : t.limit = (Q : ℚ)) (hQ : 0 ≤ Q)
    (hd : 0 ≤ d) : 0 ≤ t.revoked d := by
  rw [revoked_eq t Q d hl hQ hd]
  exact Int.ediv_nonneg (Int.mul_nonneg hd hQ) (by simp [Second])

theorem revoked_mul_le (t : tokenLimiter) (Q d : Int) (hl : t.limit = (Q : ℚ)) (hQ : 0 ≤ Q)
    (hd : 0 ≤ d) : t.revoked d * Second ≤ d * Q := by
  rw [revoked_eq t Q d hl hQ hd]
  exact Int.ediv_mul_le _ (by simp [Second])

/-- The fields of the result of `allow`, in terms of the decay `r`. -/
theorem allow_fields (t : tokenLimiter) (tSince tNow : Int) :
    (t.allow tSince tNow).2.limit = t.limit ∧ (t.allow tSince tNow).2.burst = t.burst ∧
    ((t.allow tSince tNow).1 = true ↔ max 0 (t.token - t.revoked (tSince - t.last)) < t.burst) ∧
    ((t.allow tSince tNow).1 = true →
      (t.allow tSince tNow).2.token = max 0 (t.token - t.revoked (tSince - t.last)) + 1 ∧
      (t.allow tSince tNow).2.last = tNow) ∧
    ((t.allow tSince tNow).1 = false →
      (t.allow tSince tNow).2.token = max 0 (t.token - t.revoked (tSince - t.last)) ∧
      (t.allow tSince tNow).2.last = t.last) := by
  unfold tokenLimiter.allow
  by_cases h1 : t.token - t.revoked (tSince - t.last) < 0
  · have hmax : max 0 (t.token - t.revoked (tSince - t.last)) = 0 := max_eq_left (by omega)
    simp only [h1, if_true, hmax]
    by_cases h2 : (0 : Int) < t.burst
    · simp [h2]
    · simp [h2]
  · have hmax : max 0 (t.token - t.revoked (tSince - t.last))
        = t.token - t.revoked (tSince - t.last) := max_eq_right (by omega)
    simp only [h1, if_false, hmax]
    by_cases h2 : t.token - t.revoked (tSince - t.last) < t.burst
    · simp [h2]
    · simp [h2]

theorem tokenLimiter_eq (a b : tokenLimiter) (h1 : a.limit = b.limit) (h2 : a.burst = b.burst)
    (h3 : a.token = b.token) (h4 : a.last = b.last) : a = b := by
  cases a; cases b; simp_all

/-- One call of `allow` on a limiter that fits `Q`, with non-negative elapsed
time: the result fits `Q`; an admitted call sets `last` and adds one to the
decayed counter; a denied call found the counter at `Q` with no decay and
changes nothing. -/
theorem allow_step (t : tokenLimiter) (Q : Int) (hQ : 0 < Q) (hf : t.fits Q)
    (tSince tNow : Int) (hd : t.last ≤ tSince) :
    (t.allow tSince tNow).2.fits Q ∧
    ((t.allow tSince tNow).1 = true →
      (t.allow tSince tNow).2.last = tNow ∧
      (t.allow tSince tNow).2.token = max 0 (t.token - t.revoked (tSince - t.last)) + 1) ∧
    ((t.allow tSince tNow).1 = false →
      (t.allow tSince tNow).2 = t ∧ t.token = Q ∧ t.revoked (tSince - t.last) = 0) := by
  obtain ⟨hl, hb, h0, hle⟩ := hf
  obtain ⟨al, ab, aiff, atrue, afalse⟩ := allow_fields t tSince tNow
  have hr := revoked_nonneg t Q (tSince - t.last) hl (le_of_lt hQ) (by omega)
  rw [hb] at aiff
  have hmax0 : 0 ≤ max 0 (t.token - t.revoked (tSince - t.last)) := le_max_left _ _
  have hmaxle : max 0 (t.token - t.revoked (tSince - t.last)) ≤ Q := by
    apply max_le <;> omega
  refine ⟨?_, ?_, ?_⟩
  · refine ⟨al.trans hl, ab.trans hb, ?_, ?_⟩
    · cases hres : (t.allow tSince tNow).1
      · rw [(afalse hres).1]; exact hmax0
      · rw [(atrue hres).1]; omega
    · cases hres : (t.allow tSince tNow).1
      · rw [(afalse hres).1]; exact hmaxle
      · rw [(atrue hres).1]; have := aiff.1 hres; omega
  · intro hres
    exact ⟨(atrue hres).2, (atrue hres).1⟩
  · intro hres
    have hnot : ¬ max 0 (t.token - t.revoked (tSince - t.last)) < Q := by
      intro h; rw [aiff.2 h] at hres; exact Bool.noConfusion hres
    have hge : Q ≤ max 0 (t.token - t.revoked (tSince - t.last)) := not_lt.1 hnot
    have hcase : Q ≤ t.token - t.revoked (tSince - t.last) := by
      rcases le_max_iff.1 hge with h | h
      · omega
      · exact h
    have hrev : t.revoked (tSince - t.last) = 0 := by omega
    have htok : t.token = Q := by omega
    refine ⟨?_, htok, hrev⟩
    apply tokenLimiter_eq _ _ al ab _ (afalse hres).2
    rw [(afalse hres).1, hrev]
    simp [h0]

theorem newTokenLimiter_fits (Q t0 : Int) (hQ : 0 < Q) : (newTokenLimiter Q t0).fits Q :=
  ⟨rfl, rfl, le_of_lt hQ, le_refl _⟩

theorem allows_fits (t : tokenLimiter) (Q : Int) (hQ : 0 < Q) (hf : t.fits Q)
    (calls : List (Int × Int)) (hOk : t.elapsedOk calls) : (t.allows calls).2.fits Q := by
  induction calls generalizing t with
  | nil => exact hf
  | cons call rest ih =>
    obtain ⟨h1, h2⟩ := hOk
    exact ih _ (allow_step t Q hQ hf call.1 call.2 h1).1 h2

/-- C5. Rate limiter counter invariant: for a capacity `Q > 0`, the counter of
the limiter built by `newTokenLimiter Q` lies in `[0, Q]` after construction and
after every sequence of `allow` calls that each see a non-negative elapsed time
since `last`. -/
theorem limiter_counter_invariant (Q t0 : Int) (hQ : 0 < Q) (calls : List (Int × Int))
    (hOk : (newTokenLimiter Q t0).elapsedOk calls) :
    0 ≤ (newTokenLimiter Q t0).token ∧ (newTokenLimiter Q t0).token ≤ Q ∧
    0 ≤ ((newTokenLimiter Q t0).allows calls).2.token ∧
    ((newTokenLimiter Q t0).allows calls).2.token ≤ Q := by
  have h := allows_fits _ Q hQ (newTokenLimiter_fits Q t0 hQ) calls hOk
  exact ⟨le_of_lt hQ, le_refl _, h.2.2.1, h.2.2.2⟩

theorem elapsedOk_of_clockMono (t : tokenLimiter) (Q : Int) (hQ : 0 < Q) (hf : t.fits Q)
    (τ T : Int) (calls : List (Int × Int)) (hτ : t.last ≤ τ) (hm : clockMono τ calls T) :
    t.elapsedOk calls := by
  induction calls generalizing t τ with
  | nil => trivial
  | cons call rest ih =>
    obtain ⟨h1, h2, h3⟩ := hm
    have hd : t.last ≤ call.1 := le_trans hτ h1
    obtain ⟨hfit, htrue, hfalse⟩ := allow_step t Q hQ hf call.1 call.2 hd
    refine ⟨hd, ih _ hfit call.2 ?_ h3⟩
    cases hres : (t.allow call.1 call.2).1
    · rw [(hfalse hres).1]; omega
    · rw [(htrue hres).1]

theorem limiter_counter_invariant_witness :
    0 ≤ (newTokenLimiter 5 0).token ∧ (newTokenLimiter 5 0).token ≤ 5 ∧
    0 ≤ ((newTokenLimiter 5 0).allows
      [(0, 0), (300000000, 300000001), (300000002, 300000003)]).2.token ∧
    ((newTokenLimiter 5 0).allows
      [(0, 0), (300000000, 300000001), (300000002, 300000003)]).2.token ≤ 5 :=
  limiter_counter_invariant 5 0 (by decide)
    [(0, 0), (300000000, 300000001), (300000002, 300000003)]
    (elapsedOk_of_clockMono _ 5 (by decide) (newTokenLimiter_fits 5 0 (by decide)) 0 300000003 _
      (le_refl _) (by simp [clockMono]))

theorem floor_decay (d Q : Int) :
    ⌊((d : Int) : ℚ) / 1000000000 * (Q : ℚ)⌋ = d * Q / Second := by
  have h : ((d : Int) : ℚ) / 1000000000 * (Q : ℚ)
      = ((d * Q : Int) : ℚ) / ((1000000000 : ℕ) : ℚ) := by
    push_cast; ring
  rw [h, Rat.floor_intCast_div_natCast]
  simp [Second]

/-- C6. Rate limiter step: on a limiter with `limit = burst = Q > 0`, a call of
`allow` whose clock read is not before `last` computes the decay
`floor(elapsed seconds * Q)` (this is what `revoked` returns), lowers the counter
to `c = max 0 (token - decay)`, and then, if `c < Q`, returns `true` with the
counter `c + 1` and `last` set to the clock value read on admission; otherwise
it returns `false` and leaves `last` as it was. -/
theorem limiter_step (t : tokenLimiter) (Q : Int) (hQ : 0 < Q) (hl : t.limit = (Q : ℚ))
    (hb : t.burst = Q) (tSince tNow : Int) (hd : t.last ≤ tSince) :
    t.revoked (tSince - t.last) = ⌊((tSince - t.last : Int) : ℚ) / 1000000000 * (Q : ℚ)⌋ ∧
    (max 0 (t.token - ⌊((tSince - t.last : Int) : ℚ) / 1000000000 * (Q : ℚ)⌋) < Q →
      t.allow tSince tNow =
        (true, { t with
          token := max 0 (t.token - ⌊((tSince - t.last : Int) : ℚ) / 1000000000 * (Q : ℚ)⌋) + 1,
          last := tNow })) ∧
    (¬ max 0 (t.token - ⌊((tSince - t.last : Int) : ℚ) / 1000000000 * (Q : ℚ)⌋) < Q →
      t.allow tSince tNow =
        (false, { t with
          token := max 0 (t.token - ⌊((tSince - t.last : Int) : ℚ) / 1000000000 * (Q : ℚ)⌋) })) := by
  have hrev : t.revoked (tSince - t.last)
      = ⌊((tSince - t.last : Int) : ℚ) / 1000000000 * (Q : ℚ)⌋ := by
    rw [floor_decay, revoked_eq t Q _ hl (le_of_lt hQ) (by omega)]
  obtain ⟨al, ab, aiff, atrue, afalse⟩ := allow_fields t tSince tNow
  rw [hb, hrev] at aiff
  rw [hrev] at atrue afalse
  refine ⟨hrev, ?_, ?_⟩
  · intro h
    have hres := aiff.2 h
    apply Prod.ext
    · exact hres
    · exact tokenLimiter_eq _ _ al ab (atrue hres).1 (atrue hres).2
  · intro h
    have hres : (t.allow tSince tNow).1 = false := by
      cases hr : (t.allow tSince tNow).1
      · rfl
      · exact absurd (aiff.1 hr) h
    apply Prod.ext
    · exact hres
    · exact tokenLimiter_eq _ _ al ab (afalse hres).1 (afalse hres).2

theorem limiter_step_witness :
    (newTokenLimiter 5 0).revoked (300000000 - (newTokenLimiter 5 0).last)
      = ⌊((300000000 - (newTokenLimiter 5 0).last : Int) : ℚ) / 1000000000 * ((5 : Int) : ℚ)⌋ ∧
    (max 0 ((newTokenLimiter 5 0).token
        - ⌊((300000000 - (newTokenLimiter 5 0).last : Int) : ℚ) / 1000000000 * ((5 : Int) : ℚ)⌋) < 5 →
      (newTokenLimiter 5 0).allow 300000000 300000000 =
        (true, { (newTokenLimiter 5 0) with
          token := max 0 ((newTokenLimiter 5 0).token
            - ⌊((300000000 - (newTokenLimiter 5 0).last : Int) : ℚ) / 1000000000
                * ((5 : Int) : ℚ)⌋) + 1,
          last := 300000000 })) ∧
    (¬ max 0 ((newTokenLimiter 5 0).token
        - ⌊((300000000 - (newTokenLimiter 5 0).last : Int) : ℚ) / 1000000000 * ((5 : Int) : ℚ)⌋) < 5 →
      (newTokenLimiter 5 0).allow 300000000 300000000 =
        (false, { (newTokenLimiter 5 0) with
          token := max 0 ((newTokenLimiter 5 0).token
            - ⌊((300000000 - (newTokenLimiter 5 0).last : Int) : ℚ) / 1000000000
                * ((5 : Int) : ℚ)⌋) })) :=
  limiter_step (newTokenLimiter 5 0) 5 (by decide) rfl rfl 300000000 300000000 (by decide)

/-- Budget argument: `A` calls were admitted before, and the admissions already
made plus the free room `Q - token` are paid for by the time elapsed up to
`last`; then the same holds at the end of any further monotone run. -/
theorem allows_budget (t : tokenLimiter) (Q : Int) (hQ : 0 < Q) (hf : t.fits Q)
    (t0 τ T A : Int) (calls : List (Int × Int)) (hτ : t.last ≤ τ)
    (hm : clockMono τ calls T)
    (hB : (A + Q - t.token) * Second ≤ Q * (t.last - t0)) :
    (A + ((t.allows calls).1.count true : Int)) * Second ≤ Q * (T - t0) := by
  induction calls generalizing t τ A with
  | nil =>
    have hT : τ ≤ T := hm
    have h1 : Q * (t.last - t0) ≤ Q * (T - t0) :=
      mul_le_mul_of_nonneg_left (by omega) (le_of_lt hQ)
    have h2 := hf.2.2.2
    simp only [tokenLimiter.allows, List.count_nil, Nat.cast_zero, add_zero]
    simp only [Second] at hB ⊢
    linarith
  | cons call rest ih =>
    obtain ⟨h1, h2, h3⟩ := hm
    have hd : t.last ≤ call.1 := le_trans hτ h1
    obtain ⟨hfit, htrue, hfalse⟩ := allow_step t Q hQ hf call.1 call.2 hd
    simp only [tokenLimiter.allows, List.count_cons]
    cases hres : (t.allow call.1 call.2).1
    · obtain ⟨heq, -, -⟩ := hfalse hres
      have := ih t hf call.2 A (by omega) h3 hB
      rw [heq]
      simpa using this
    · obtain ⟨hlast, htok⟩ := htrue hres
      have hrev := revoked_mul_le t Q (call.1 - t.last) hf.1 (le_of_lt hQ) (by omega)
      have hmax : t.token - t.revoked (call.1 - t.last)
          ≤ max 0 (t.token - t.revoked (call.1 - t.last)) := le_max_right _ _
      have hmono : (call.1 - t.last) * Q ≤ (call.2 - t.last) * Q :=
        mul_le_mul_of_nonneg_right (by omega) (le_of_lt hQ)
      have hB' : (A + 1 + Q - (t.allow call.1 call.2).2.token) * Second
          ≤ Q * ((t.allow call.1 call.2).2.last - t0) := by
        rw [hlast, htok]
        have e1 : Q * (call.2 - t0) = Q * (t.last - t0) + (call.2 - t.last) * Q := by ring
        rw [e1]
        simp only [Second] at hB hrev ⊢
        linarith
      have := ih (t.allow call.1 call.2).2 hfit call.2 (A + 1) (by rw [hlast]) h3 hB'
      simp only [beq_self_eq_true, if_true, Nat.cast_add, Nat.cast_one]
      linarith

/-- C7. QPS is an upper bound: for a capacity `Q > 0` and `allow` calls whose
clock reads are non-decreasing from the creation time `t0` up to `T`, the number
of admitted calls times one second is at most `Q * (T - t0)`; that is, within
`T - t0` nanoseconds of its creation the limiter admits at most
`Q * (T - t0) / 1e9` calls. -/
theorem qps_upper_bound (Q t0 T : Int) (hQ : 0 < Q) (calls : List (Int × Int))
    (hm : clockMono t0 calls T) :
    (((newTokenLimiter Q t0).allows calls).1.count true : Int) * Second ≤ Q * (T - t0) := by
  have h := allows_budget (newTokenLimiter Q t0) Q hQ (newTokenLimiter_fits Q t0 hQ) t0 t0 T 0
    calls (le_refl _) hm (by simp [newTokenLimiter])
  simpa using h

theorem qps_upper_bound_witness :
    (((newTokenLimiter 5 0).allows
        [(0, 0), (300000000, 300000001), (300000002, 300000003),
          (1000000000, 1000000000)]).1.count true : Int) * Second
      ≤ 5 * (1000000000 - 0) :=
  qps_upper_bound 5 0 1000000000 (by decide)
    [(0, 0), (300000000, 300000001), (300000002, 300000003), (1000000000, 1000000000)]
    (by simp [clockMono])

/-- The first call of a fresh limiter is denied when it comes less than `1/Q`
seconds after the creation. -/
theorem first_call_denied (Q t0 tSince tNow : Int) (hQ : 0 < Q) (h0 : t0 ≤ tSince)
    (hlt : (tSince - t0) * Q < Second) :
    ((newTokenLimiter Q t0).allow tSince tNow).1 = false := by
  obtain ⟨-, -, aiff, -, -⟩ := allow_fields (newTokenLimiter Q t0) tSince tNow
  have hrev : (newTokenLimiter Q t0).revoked (tSince - (newTokenLimiter Q t0).last) = 0 := by
    rw [revoked_eq _ Q _ rfl (le_of_lt hQ) (by simp only [newTokenLimiter]; omega)]
    exact Int.ediv_eq_zero_of_lt (Int.mul_nonneg (by simp only [newTokenLimiter]; omega)
      (le_of_lt hQ)) hlt
  rw [hrev] at aiff
  cases hres : ((newTokenLimiter Q t0).allow tSince tNow).1
  · rfl
  · have := aiff.1 hres
    simp [newTokenLimiter] at this

/-- C8, as stated, fails: with `Q = 5` the very first call, made one microsecond
after the creation, is denied although no call (fewer than `Q`) was admitted
before it. -/
theorem denial_counterexample :
    ((newTokenLimiter 5 0).allows [(1000, 1000)]).1 = [false] ∧
    (([] : List Bool).count true : Int) < 5 := by
  refine ⟨?_, by decide⟩
  simp [tokenLimiter.allows, first_call_denied 5 0 1000 1000 (by decide) (by decide) (by decide)]

/-- C8, amended. A denied call found the counter full with nothing to decay: on
the limiter reached from `newTokenLimiter Q` (`Q > 0`) by calls with non-negative
elapsed time, a call with non-negative elapsed time is denied if and only if the
counter is `Q` and `revoked` returns 0 (less than `1/Q` s since `last`), and a
denied call leaves the limiter unchanged. -/
theorem denial_needs_full_counter (Q t0 : Int) (hQ : 0 < Q) (calls : List (Int × Int))
    (hOk : (newTokenLimiter Q t0).elapsedOk calls) (tSince tNow : Int)
    (hd : ((newTokenLimiter Q t0).allows calls).2.last ≤ tSince) :
    ((((newTokenLimiter Q t0).allows calls).2.allow tSince tNow).1 = false ↔
      ((newTokenLimiter Q t0).allows calls).2.token = Q ∧
      ((newTokenLimiter Q t0).allows calls).2.revoked
        (tSince - ((newTokenLimiter Q t0).allows calls).2.last) = 0) ∧
    ((((newTokenLimiter Q t0).allows calls).2.allow tSince tNow).1 = false →
      (((newTokenLimiter Q t0).allows calls).2.allow tSince tNow).2
        = ((newTokenLimiter Q t0).allows calls).2 ∧
      (tSince - ((newTokenLimiter Q t0).allows calls).2.last) * Q < Second) := by
  have hf := allows_fits _ Q hQ (newTokenLimiter_fits Q t0 hQ) calls hOk
  generalize ((newTokenLimiter Q t0).allows calls).2 = t at hf hd ⊢
  obtain ⟨-, -, hfalse⟩ := allow_step t Q hQ hf tSince tNow hd
  obtain ⟨-, -, aiff, -, -⟩ := allow_fields t tSince tNow
  refine ⟨⟨fun h => (hfalse h).2, ?_⟩, ?_⟩
  · rintro ⟨h1, h2⟩
    cases hres : (t.allow tSince tNow).1
    · rfl
    · have := aiff.1 hres
      rw [h2, h1, hf.2.1] at this
      have hmax : Q ≤ max 0 (Q - 0) := by simp
      omega
  · intro h
    obtain ⟨heq, -, hrev⟩ := hfalse h
    refine ⟨heq, ?_⟩
    rw [revoked_eq t Q _ hf.1 (le_of_lt hQ) (by omega)] at hrev
    have hS : (0 : Int) < Second := by simp [Second]
    have := Int.lt_ediv_add_one_mul_self ((tSince - t.last) * Q) hS
    rw [hrev] at this
    simpa using this

theorem allows_last_le (t : tokenLimiter) (Q : Int) (hQ : 0 < Q) (hf : t.fits Q)
    (τ T : Int) (calls : List (Int × Int)) (hτ : t.last ≤ τ) (hm : clockMono τ calls T) :
    (t.allows calls).2.last ≤ T := by
  induction calls generalizing t τ with
  | nil => exact le_trans hτ hm
  | cons call rest ih =>
    obtain ⟨h1, h2, h3⟩ := hm
    have hd : t.last ≤ call.1 := le_trans hτ h1
    obtain ⟨hfit, htrue, hfalse⟩ := allow_step t Q hQ hf call.1 call.2 hd
    refine ih _ hfit call.2 ?_ h3
    cases hres : (t.allow call.1 call.2).1
    · rw [(hfalse hres).1]; omega
    · rw [(htrue hres).1]

theorem denial_needs_full_counter_witness :
    ((((newTokenLimiter 5 0).allows [(1000, 1000), (300000000, 300000001)]).2.allow
        300000002 300000002).1 = false ↔
      ((newTokenLimiter 5 0).allows [(1000, 1000), (300000000, 300000001)]).2.token = 5 ∧
      ((newTokenLimiter 5 0).allows [(1000, 1000), (300000000, 300000001)]).2.revoked
        (300000002
          - ((newTokenLimiter 5 0).allows [(1000, 1000), (300000000, 300000001)]).2.last) = 0) ∧
    ((((newTokenLimiter 5 0).allows [(1000, 1000), (300000000, 300000001)]).2.allow
        300000002 300000002).1 = false →
      (((newTokenLimiter 5 0).allows [(1000, 1000), (300000000, 300000001)]).2.allow
        300000002 300000002).2
        = ((newTokenLimiter 5 0).allows [(1000, 1000), (300000000, 300000001)]).2 ∧
      (300000002
        - ((newTokenLimiter 5 0).allows [(1000, 1000), (300000000, 300000001)]).2.last) * 5
        < Second) :=
  denial_needs_full_counter 5 0 (by decide) [(1000, 1000), (300000000, 300000001)]
    (elapsedOk_of_clockMono _ 5 (by decide) (newTokenLimiter_fits 5 0 (by decide)) 0 300000002 _
      (le_refl _) (by simp [clockMono]))
    300000002 300000002
    (allows_last_le _ 5 (by decide) (newTokenLimiter_fits 5 0 (by decide)) 0 300000002 _
      (le_refl _) (by simp [clockMono]))

/-! ## Unlimited mode -/

theorem nope_allows (b : Bool) (calls : List (Int × Int)) :
    ((limiter.nopeLimiter b).allows calls).1 = List.replicate calls.length true ∧
    ((limiter.nopeLimiter b).allows calls).2 = limiter.nopeLimiter b := by
  induction calls with
  | nil => exact ⟨rfl, rfl⟩
  | cons call rest ih =>
    simp only [limiter.allows, limiter.allow, List.length_cons, List.replicate_succ]
    exact ⟨by rw [ih.1], ih.2⟩

/-- C9. Unlimited mode: with `Qps <= 0` the limiter installed by `New` is the
no-op limiter, `init` keeps it, and every `allow` call on it returns `true`,
whatever the number of calls and the clock values. -/
theorem unlimited_mode (c : Config) (hq : c.Qps ≤ 0) (tInit : Int)
    (newClient : Option String) (p0 : HttpGo)
    (h0 : (New c).init tInit newClient = .ok p0) (tRun : Int) (calls : List (Int × Int)) :
    (New c).limiter = .nopeLimiter false ∧ p0.limiter = .nopeLimiter false ∧
    (p0.run tRun).limiter = .nopeLimiter false ∧
    ((p0.run tRun).limiter.allows calls).1 = List.replicate calls.length true ∧
    ((p0.run tRun).limiter.allows calls).2 = .nopeLimiter false := by
  have hp := init_eq _ _ _ _ h0
  have hlim : p0.limiter = .nopeLimiter false := by
    rw [hp]
    simp only []
    rw [if_neg (by rw [New_Qps]; omega)]
    rfl
  have hrun : (p0.run tRun).limiter = .nopeLimiter false := hlim
  refine ⟨rfl, hlim, hrun, ?_, ?_⟩
  · rw [hrun]; exact (nope_allows false calls).1
  · rw [hrun]; exact (nope_allows false calls).2

theorem unlimited_mode_witness :
    (New cfgCount).limiter = .nopeLimiter false ∧
    (startOf cfgCount).limiter = .nopeLimiter false ∧
    ((startOf cfgCount).run 0).limiter = .nopeLimiter false ∧
    (((startOf cfgCount).run 0).limiter.allows [(0, 0), (0, 0), (1, 2), (5, 5)]).1
      = List.replicate [((0 : Int), (0 : Int)), (0, 0), (1, 2), (5, 5)].length true ∧
    (((startOf cfgCount).run 0).limiter.allows [(0, 0), (0, 0), (1, 2), (5, 5)]).2
      = .nopeLimiter false :=
  unlimited_mode cfgCount (by decide) 0 none (startOf cfgCount) (by rfl) 0
    [(0, 0), (0, 0), (1, 2), (5, 5)]

/-! ## Error outcomes -/

/-- C10, as stated, fails: after one success recorded 1 ms into the round the
per-round counter is 1 and `done` is false; an error recorded 20 ms into the
round flushes the round and resets the per-round counter to 0. -/
theorem error_frame_counterexample :
    (New cfgDuration).init 0 none = .ok (startOf cfgDuration) ∧
    (((startOf cfgDuration).run 0).records [okAt 1000000]).map (fun s => (s.roundReqs, s.done))
      = some (1, false) ∧
    (((startOf cfgDuration).run 0).records [okAt 1000000, errAt 20000000]).map
      (fun s => s.roundReqs) = some 0 :=
  ⟨by rfl, by decide, by decide⟩

/-- C10, amended. Error outcomes are framed: in a state that is not done (its
channel open), a call of `statistic` with an error returns a state in which the
histogram count of that message is one higher, every other histogram entry, the
success counter, the six status buckets and the latency samples are unchanged,
and the per-round success counter is unchanged unless the call flushes the round
(count-mode stop not hit and at least 10 ms since the round start), which resets
it to 0. -/
theorem error_frame (p : HttpGo) (hd : p.done = false) (hc : p.doneChan.closed = false)
    (code latency : Int) (e : String) (tSince tNow : Int) :
    ∃ s, p.statistic code latency (some e) tSince tNow = some s ∧
      mapGet s.stat.errs e = mapGet p.stat.errs e + 1 ∧
      (∀ k, k ≠ e → mapGet s.stat.errs k = mapGet p.stat.errs k) ∧
      s.stat.reqs = p.stat.reqs ∧
      s.stat.code1xx = p.stat.code1xx ∧ s.stat.code2xx = p.stat.code2xx ∧
      s.stat.code3xx = p.stat.code3xx ∧ s.stat.code4xx = p.stat.code4xx ∧
      s.stat.code5xx = p.stat.code5xx ∧ s.stat.codeOthers = p.stat.codeOthers ∧
      s.stat.latencies = p.stat.latencies ∧
      s.roundReqs =
        (if ¬ (p.c.Count > 0 ∧ p.stat.reqs = p.c.Count) ∧ tSince - p.startTime ≥ interval
         then 0 else p.roundReqs) := by
  have hget : mapGet (mapSet p.stat.errs e (mapGet p.stat.errs e + 1)) e
      = mapGet p.stat.errs e + 1 := mapGet_mapSet_self _ _ _
  have hoth : ∀ k, k ≠ e → mapGet (mapSet p.stat.errs e (mapGet p.stat.errs e + 1)) k
      = mapGet p.stat.errs k := fun k hk => mapGet_mapSet_other _ _ _ _ hk
  rw [statistic_eq]
  simp only [hd, Bool.false_eq_true, if_false]
  have hreq : (p.observe code latency (some e)).stat.reqs = p.stat.reqs := by
    simp [nOk]
  rw [hreq]
  by_cases h1 : p.c.Count > 0 ∧ p.stat.reqs = p.c.Count
  · have hR : (if ¬ (p.c.Count > 0 ∧ p.stat.reqs = p.c.Count) ∧ tSince - p.startTime ≥ interval
        then (0 : Int) else p.roundReqs) = p.roundReqs := if_neg (fun h => h.1 h1)
    rw [hR, if_pos h1, stop_open _ (by simpa using hc)]
    exact ⟨_, rfl, hget, hoth, rfl, rfl, rfl, rfl, rfl, rfl, rfl, rfl, rfl⟩
  · rw [if_neg h1]
    by_cases h2 : tSince - p.startTime ≥ interval
    · have hR : (if ¬ (p.c.Count > 0 ∧ p.stat.reqs = p.c.Count) ∧
          tSince - p.startTime ≥ interval then (0 : Int) else p.roundReqs) = 0 :=
        if_pos ⟨h1, h2⟩
      rw [hR, if_pos h2]
      by_cases h3 : p.c.Count ≤ 0 ∧
          ((p.observe code latency (some e)).flush (tSince - p.startTime) tNow).stat.elapsed
            ≥ p.c.Duration
      · rw [if_pos h3, stop_open _ (by simpa using hc)]
        exact ⟨_, rfl, hget, hoth, rfl, rfl, rfl, rfl, rfl, rfl, rfl, rfl, rfl⟩
      · rw [if_neg h3]
        exact ⟨_, rfl, hget, hoth, rfl, rfl, rfl, rfl, rfl, rfl, rfl, rfl, rfl⟩
    · have hR : (if ¬ (p.c.Count > 0 ∧ p.stat.reqs = p.c.Count) ∧
          tSince - p.startTime ≥ interval then (0 : Int) else p.roundReqs) = p.roundReqs :=
        if_neg (fun h => h2 h.2)
      rw [hR, if_neg h2]
      by_cases h3 : p.c.Count ≤ 0 ∧ (p.observe code latency (some e)).stat.elapsed ≥ p.c.Duration
      · rw [if_pos h3, stop_open _ (by simpa using hc)]
        exact ⟨_, rfl, hget, hoth, rfl, rfl, rfl, rfl, rfl, rfl, rfl, rfl, rfl⟩
      · rw [if_neg h3]
        exact ⟨_, rfl, hget, hoth, rfl, rfl, rfl, rfl, rfl, rfl, rfl, rfl, rfl⟩

theorem error_frame_witness :
    ∃ s, ((startOf cfgDuration).run 0).statistic 0 0 (some "dial timeout") 20000000 20000000
        = some s ∧
      mapGet s.stat.errs "dial timeout"
        = mapGet ((startOf cfgDuration).run 0).stat.errs "dial timeout" + 1 ∧
      (∀ k, k ≠ "dial timeout" →
        mapGet s.stat.errs k = mapGet ((startOf cfgDuration).run 0).stat.errs k) ∧
      s.stat.reqs = ((startOf cfgDuration).run 0).stat.reqs ∧
      s.stat.code1xx = ((startOf cfgDuration).run 0).stat.code1xx ∧
      s.stat.code2xx = ((startOf cfgDuration).run 0).stat.code2xx ∧
      s.stat.code3xx = ((startOf cfgDuration).run 0).stat.code3xx ∧
      s.stat.code4xx = ((startOf cfgDuration).run 0).stat.code4xx ∧
      s.stat.code5xx = ((startOf cfgDuration).run 0).stat.code5xx ∧
      s.stat.codeOthers = ((startOf cfgDuration).run 0).stat.codeOthers ∧
      s.stat.latencies = ((startOf cfgDuration).run 0).stat.latencies ∧
      s.roundReqs =
        (if ¬ (((startOf cfgDuration).run 0).c.Count > 0 ∧
              ((startOf cfgDuration).run 0).stat.reqs = ((startOf cfgDuration).run 0).c.Count) ∧
            20000000 - ((startOf cfgDuration).run 0).startTime ≥ interval
         then 0 else ((startOf cfgDuration).run 0).roundReqs) :=
  error_frame ((startOf cfgDuration).run 0) (by rfl) (by rfl) 0 0 "dial timeout" 20000000 20000000

/-! ## Success outcomes -/

theorem tdiv_hundred (code : Int) :
    (0 ≤ code → Int.tdiv code 100 = code / 100) ∧ (code < 0 → Int.tdiv code 100 ≤ 0) := by
  constructor
  · intro h
    exact Int.tdiv_eq_ediv h (by decide)
  · intro h
    have h1 : code = -(-code) := by ring
    rw [h1, Int.neg_tdiv]
    have := Int.tdiv_nonneg (a := -code) (b := 100) (by omega) (by decide)
    omega

/-- The bucket chosen by `appendCode`, in terms of the range of the code. -/
theorem appendCode_buckets (t : stat) (code : Int) :
    (t.appendCode code).code1xx = t.code1xx + (if 100 ≤ code ∧ code ≤ 199 then 1 else 0) ∧
    (t.appendCode code).code2xx = t.code2xx + (if 200 ≤ code ∧ code ≤ 299 then 1 else 0) ∧
    (t.appendCode code).code3xx = t.code3xx + (if 300 ≤ code ∧ code ≤ 399 then 1 else 0) ∧
    (t.appendCode code).code4xx = t.code4xx + (if 400 ≤ code ∧ code ≤ 499 then 1 else 0) ∧
    (t.appendCode code).code5xx = t.code5xx + (if 500 ≤ code ∧ code ≤ 599 then 1 else 0) ∧
    (t.appendCode code).codeOthers = t.codeOthers + (if code < 100 ∨ 600 ≤ code then 1 else 0) := by
  obtain ⟨hpos, hneg⟩ := tdiv_hundred code
  have e1 : (100 ≤ code ∧ code ≤ 199) ↔ Int.tdiv code 100 = 1 := by
    by_cases h : 0 ≤ code
    · rw [hpos h]; omega
    · have := hneg (by omega); omega
  have e2 : (200 ≤ code ∧ code ≤ 299) ↔ Int.tdiv code 100 = 2 := by
    by_cases h : 0 ≤ code
    · rw [hpos h]; omega
    · have := hneg (by omega); omega
  have e3 : (300 ≤ code ∧ code ≤ 399) ↔ Int.tdiv code 100 = 3 := by
    by_cases h : 0 ≤ code
    · rw [hpos h]; omega
    · have := hneg (by omega); omega
  have e4 : (400 ≤ code ∧ code ≤ 499) ↔ Int.tdiv code 100 = 4 := by
    by_cases h : 0 ≤ code
    · rw [hpos h]; omega
    · have := hneg (by omega); omega
  have e5 : (500 ≤ code ∧ code ≤ 599) ↔ Int.tdiv code 100 = 5 := by
    by_cases h : 0 ≤ code
    · rw [hpos h]; omega
    · have := hneg (by omega); omega
  have eo : (code < 100 ∨ 600 ≤ code) ↔
      (Int.tdiv code 100 ≠ 1 ∧ Int.tdiv code 100 ≠ 2 ∧ Int.tdiv code 100 ≠ 3 ∧
        Int.tdiv code 100 ≠ 4 ∧ Int.tdiv code 100 ≠ 5) := by
    by_cases h : 0 ≤ code
    · rw [hpos h]; omega
    · have := hneg (by omega); omega
  simp only [e1, e2, e3, e4, e5, eo]
  unfold stat.appendCode
  generalize Int.tdiv code 100 = c
  simp only []
  by_cases h1 : c = 1
  · subst h1; simp
  by_cases h2 : c = 2
  · subst h2; simp
  by_cases h3 : c = 3
  · subst h3; simp
  by_cases h4 : c = 4
  · subst h4; simp
  by_cases h5 : c = 5
  · subst h5; simp
  simp [h1, h2, h3, h4, h5]

/-- The recorded fields of the state returned by `statistic` are those left by
the block `observe`: the rest of the function touches only the RPS samples, the
elapsed total, the round and the stop flag. -/
theorem statistic_frame (p : HttpGo) (code latency : Int) (err : Option String)
    (tSince tNow : Int) (hd : p.done = false) (hc : p.doneChan.closed = false) :
    ∃ s, p.statistic code latency err tSince tNow = some s ∧
      s.stat.reqs = (p.observe code latency err).stat.reqs ∧
      s.stat.code1xx = (p.observe code latency err).stat.code1xx ∧
      s.stat.code2xx = (p.observe code latency err).stat.code2xx ∧
      s.stat.code3xx = (p.observe code latency err).stat.code3xx ∧
      s.stat.code4xx = (p.observe code latency err).stat.code4xx ∧
      s.stat.code5xx = (p.observe code latency err).stat.code5xx ∧
      s.stat.codeOthers = (p.observe code latency err).stat.codeOthers ∧
      s.stat.latencies = (p.observe code latency err).stat.latencies ∧
      s.stat.errs = (p.observe code latency err).stat.errs := by
  rw [statistic_eq]
  simp only [hd, Bool.false_eq_true, if_false]
  split_ifs
  · rw [stop_open _ (by simpa using hc)]
    exact ⟨_, rfl, rfl, rfl, rfl, rfl, rfl, rfl, rfl, rfl, rfl⟩
  · rw [stop_open _ (by simpa using hc)]
    exact ⟨_, rfl, rfl, rfl, rfl, rfl, rfl, rfl, rfl, rfl, rfl⟩
  · exact ⟨_, rfl, rfl, rfl, rfl, rfl, rfl, rfl, rfl, rfl, rfl⟩
  · rw [stop_open _ (by simpa using hc)]
    exact ⟨_, rfl, rfl, rfl, rfl, rfl, rfl, rfl, rfl, rfl, rfl⟩
  · exact ⟨_, rfl, rfl, rfl, rfl, rfl, rfl, rfl, rfl, rfl, rfl⟩

theorem appendCode_bucketTotal (t : stat) (code : Int) :
    (t.appendCode code).bucketTotal = t.bucketTotal + 1 := by
  obtain ⟨h1, h2, h3, h4, h5, ho⟩ := appendCode_buckets t code
  unfold stat.bucketTotal
  rw [h1, h2, h3, h4, h5, ho]
  split_ifs <;> omega

/-- The tally kept by `observe`: a success adds one to `reqs`, to one bucket and
to the latency samples; an error adds to none of them. -/
theorem observe_tally (p : HttpGo) (code latency : Int) (err : Option String) :
    (p.observe code latency err).stat.bucketTotal = p.stat.bucketTotal + nOk err ∧
    ((p.observe code latency err).stat.latencies.length : Int)
      = (p.stat.latencies.length : Int) + nOk err := by
  cases err with
  | some e => exact ⟨by simp [HttpGo.observe, stat.appendError, stat.bucketTotal, nOk],
      by simp [HttpGo.observe, stat.appendError, nOk]⟩
  | none =>
    refine ⟨?_, ?_⟩
    · show (stat.appendCode _ code).bucketTotal = _
      rw [appendCode_bucketTotal]
      simp [stat.bucketTotal, nOk]
    · simp [HttpGo.observe, stat.appendLatency, nOk]

theorem tally_statistic (p : HttpGo) (hI : Inv p) (code latency : Int) (err : Option String)
    (tSince tNow : Int) (s : HttpGo) (hs : p.statistic code latency err tSince tNow = some s)
    (hT : p.stat.bucketTotal = p.stat.reqs ∧ (p.stat.latencies.length : Int) = p.stat.reqs) :
    s.stat.bucketTotal = s.stat.reqs ∧ (s.stat.latencies.length : Int) = s.stat.reqs := by
  by_cases hd : p.done = true
  · rw [statistic_done _ _ _ _ _ _ hd] at hs
    injection hs with hs
    rw [← hs]; exact hT
  · have hd' : p.done = false := by simpa using hd
    obtain ⟨s', hs', hr, h1, h2, h3, h4, h5, ho, hl, -⟩ :=
      statistic_frame p code latency err tSince tNow hd' (by rw [hI.1, hd'])
    rw [hs] at hs'
    injection hs' with hs'
    subst hs'
    obtain ⟨hb, hlen⟩ := observe_tally p code latency err
    have hreq := observe_reqs p code latency err
    refine ⟨?_, ?_⟩
    · have : s.stat.bucketTotal = (p.observe code latency err).stat.bucketTotal := by
        unfold stat.bucketTotal
        rw [h1, h2, h3, h4, h5, ho]
      rw [this, hb, hr, hreq, hT.1]
    · rw [hl, hlen, hr, hreq, hT.2]

theorem tally_records (p : HttpGo) (hI : Inv p) (rs : List Record)
    (hT : p.stat.bucketTotal = p.stat.reqs ∧ (p.stat.latencies.length : Int) = p.stat.reqs) :
    ∃ s, p.records rs = some s ∧
      s.stat.bucketTotal = s.stat.reqs ∧ (s.stat.latencies.length : Int) = s.stat.reqs := by
  induction rs generalizing p with
  | nil => exact ⟨p, rfl, hT⟩
  | cons r rs ih =>
    obtain ⟨q, hq, -, hqI, -⟩ := Inv_statistic p hI r.code r.latency r.err r.tSince r.tNow
    obtain ⟨s, hs, hsT⟩ := ih q hqI (tally_statistic p hI _ _ _ _ _ q hq hT)
    exact ⟨s, by simp [HttpGo.records, hq, hs], hsT⟩

/-- C11. Success outcomes are classified once: in a state that is not done (its
channel open) a call of `statistic` without error returns a state in which
`reqs` is one higher, the bucket of the class of the code is one higher and the
other five are unchanged (`1xx` for 100..199, ..., `5xx` for 500..599, `other`
for every code below 100 or from 600 on, negative codes included), and the
latency in whole microseconds is appended to the samples. Hence in every state
reached from the start the six buckets sum to `reqs`, which is also the number
of latency samples. -/
theorem success_classified (p : HttpGo) (hd : p.done = false) (hc : p.doneChan.closed = false)
    (code latency tSince tNow : Int) (c : Config) (tInit : Int) (newClient : Option String)
    (p0 : HttpGo) (h0 : (New c).init tInit newClient = .ok p0) (tRun : Int)
    (rs : List Record) :
    (∃ s, p.statistic code latency none tSince tNow = some s ∧
      s.stat.reqs = p.stat.reqs + 1 ∧
      s.stat.code1xx = p.stat.code1xx + (if 100 ≤ code ∧ code ≤ 199 then 1 else 0) ∧
      s.stat.code2xx = p.stat.code2xx + (if 200 ≤ code ∧ code ≤ 299 then 1 else 0) ∧
      s.stat.code3xx = p.stat.code3xx + (if 300 ≤ code ∧ code ≤ 399 then 1 else 0) ∧
      s.stat.code4xx = p.stat.code4xx + (if 400 ≤ code ∧ code ≤ 499 then 1 else 0) ∧
      s.stat.code5xx = p.stat.code5xx + (if 500 ≤ code ∧ code ≤ 599 then 1 else 0) ∧
      s.stat.codeOthers = p.stat.codeOthers + (if code < 100 ∨ 600 ≤ code then 1 else 0) ∧
      s.stat.latencies = p.stat.latencies ++ [Int.tdiv latency 1000]) ∧
    (∃ s, (p0.run tRun).records rs = some s ∧
      s.stat.code1xx + s.stat.code2xx + s.stat.code3xx + s.stat.code4xx + s.stat.code5xx
        + s.stat.codeOthers = s.stat.reqs ∧
      (s.stat.latencies.length : Int) = s.stat.reqs) := by
  constructor
  · obtain ⟨s, hs, hr, h1, h2, h3, h4, h5, ho, hl, -⟩ :=
      statistic_frame p code latency none tSince tNow hd hc
    obtain ⟨b1, b2, b3, b4, b5, bo⟩ :=
      appendCode_buckets ({ p.stat with reqs := p.stat.reqs + 1 } : stat) code
    refine ⟨s, hs, ?_, ?_, ?_, ?_, ?_, ?_, ?_, ?_⟩
    · rw [hr, observe_reqs]; rfl
    · rw [h1]; exact b1
    · rw [h2]; exact b2
    · rw [h3]; exact b3
    · rw [h4]; exact b4
    · rw [h5]; exact b5
    · rw [ho]; exact bo
    · rw [hl]; simp [HttpGo.observe, stat.appendLatency, Microseconds]
  · obtain ⟨-, -, hr, -, -, -⟩ := init_ok c tInit newClient p0 h0
    have hp := init_eq _ _ _ _ h0
    have hT : (p0.run tRun).stat.bucketTotal = (p0.run tRun).stat.reqs ∧
        ((p0.run tRun).stat.latencies.length : Int) = (p0.run tRun).stat.reqs := by
      rw [hp]
      exact ⟨rfl, rfl⟩
    obtain ⟨s, hs, hb, hl⟩ := tally_records _ (Inv_start c tInit newClient p0 h0 tRun) rs hT
    exact ⟨s, hs, hb, hl⟩

theorem success_classified_witness :
    (∃ s, ((startOf cfgCount).run 0).statistic 404 1500000 none 1 1 = some s ∧
      s.stat.reqs = ((startOf cfgCount).run 0).stat.reqs + 1 ∧
      s.stat.code1xx = ((startOf cfgCount).run 0).stat.code1xx
        + (if (100 : Int) ≤ 404 ∧ (404 : Int) ≤ 199 then 1 else 0) ∧
      s.stat.code2xx = ((startOf cfgCount).run 0).stat.code2xx
        + (if (200 : Int) ≤ 404 ∧ (404 : Int) ≤ 299 then 1 else 0) ∧
      s.stat.code3xx = ((startOf cfgCount).run 0).stat.code3xx
        + (if (300 : Int) ≤ 404 ∧ (404 : Int) ≤ 399 then 1 else 0) ∧
      s.stat.code4xx = ((startOf cfgCount).run 0).stat.code4xx
        + (if (400 : Int) ≤ 404 ∧ (404 : Int) ≤ 499 then 1 else 0) ∧
      s.stat.code5xx = ((startOf cfgCount).run 0).stat.code5xx
        + (if (500 : Int) ≤ 404 ∧ (404 : Int) ≤ 599 then 1 else 0) ∧
      s.stat.codeOthers = ((startOf cfgCount).run 0).stat.codeOthers
        + (if (404 : Int) < 100 ∨ (600 : Int) ≤ 404 then 1 else 0) ∧
      s.stat.latencies = ((startOf cfgCount).run 0).stat.latencies
        ++ [Int.tdiv 1500000 1000]) ∧
    (∃ s, ((startOf cfgCount).run 0).records [okAt 1, errAt 2, okAt 3] = some s ∧
      s.stat.code1xx + s.stat.code2xx + s.stat.code3xx + s.stat.code4xx + s.stat.code5xx
        + s.stat.codeOthers = s.stat.reqs ∧
      (s.stat.latencies.length : Int) = s.stat.reqs) :=
  success_classified ((startOf cfgCount).run 0) (by rfl) (by rfl) 404 1500000 1 1 cfgCount 0
    none (startOf cfgCount) (by rfl) 0 [okAt 1, errAt 2, okAt 3]

/-! ## Round bookkeeping -/

theorem Seconds_eq (d : Int) : Seconds d = (d : ℚ) / 1000000000 := by
  have h := Int.tdiv_add_tmod d Second
  have h' : ((Second * Int.tdiv d Second + Int.tmod d Second : Int) : ℚ) = (d : ℚ) := by
    rw [h]
  unfold Seconds
  rw [← h']
  simp only [Second]
  push_cast
  ring

theorem observe_rps (p : HttpGo) (code latency : Int) (err : Option String) :
    (p.observe code latency err).stat.rps = p.stat.rps := by
  cases err with
  | some e => rfl
  | none => simp [HttpGo.observe, stat.appendLatency]

theorem observe_roundReqs (p : HttpGo) (code latency : Int) (err : Option String) :
    (p.observe code latency err).roundReqs = p.roundReqs + nOk err := by
  cases err <;> simp [HttpGo.observe, nOk]

/-- One call of `statistic` that does not hit the count-mode stop, in a state
that is not done and whose channel is open: the round is flushed exactly when at
least `interval` has passed since the round start. -/
theorem round_step (p : HttpGo) (hd : p.done = false) (hc : p.doneChan.closed = false)
    (code latency : Int) (err : Option String) (tSince tNow : Int)
    (hns : ¬ (p.c.Count > 0 ∧ p.stat.reqs + nOk err = p.c.Count)) :
    ∃ s, p.statistic code latency err tSince tNow = some s ∧
      (tSince - p.startTime ≥ interval →
        s.stat.rps = p.stat.rps ++
          [((p.roundReqs + nOk err : Int) : ℚ) / (((tSince - p.startTime : Int) : ℚ) / 1000000000)] ∧
        s.stat.elapsed = p.stat.elapsed + (tSince - p.startTime) ∧
        s.roundReqs = 0 ∧ s.startTime = tNow) ∧
      (tSince - p.startTime < interval →
        s.stat.rps = p.stat.rps ∧ s.stat.elapsed = p.stat.elapsed ∧
        s.startTime = p.startTime) := by
  have hrps : ∀ e : Int, ((p.observe code latency err).flush e tNow).stat.rps
      = p.stat.rps ++ [((p.roundReqs + nOk err : Int) : ℚ) / ((e : ℚ) / 1000000000)] := by
    intro e
    show (p.observe code latency err).stat.rps ++ [_] = _
    rw [observe_rps, observe_roundReqs, Seconds_eq]
  rw [statistic_eq]
  simp only [hd, Bool.false_eq_true, if_false]
  rw [if_neg (by rw [observe_reqs]; exact hns)]
  by_cases h2 : tSince - p.startTime ≥ interval
  · rw [if_pos h2]
    by_cases h3 : p.c.Count ≤ 0 ∧
        ((p.observe code latency err).flush (tSince - p.startTime) tNow).stat.elapsed
          ≥ p.c.Duration
    · rw [if_pos h3, stop_open _ (by simpa using hc)]
      refine ⟨_, rfl, fun _ => ⟨?_, ?_, rfl, rfl⟩, fun h => absurd h2 (by omega)⟩
      · exact hrps _
      · simp
    · rw [if_neg h3]
      refine ⟨_, rfl, fun _ => ⟨?_, ?_, rfl, rfl⟩, fun h => absurd h2 (by omega)⟩
      · exact hrps _
      · simp
  · rw [if_neg h2]
    by_cases h3 : p.c.Count ≤ 0 ∧ (p.observe code latency err).stat.elapsed ≥ p.c.Duration
    · rw [if_pos h3, stop_open _ (by simpa using hc)]
      refine ⟨_, rfl, fun h => absurd h h2, fun _ => ⟨?_, ?_, ?_⟩⟩
      · exact observe_rps _ _ _ _
      · simp
      · simp
    · rw [if_neg h3]
      refine ⟨_, rfl, fun h => absurd h h2, fun _ => ⟨?_, ?_, ?_⟩⟩
      · exact observe_rps _ _ _ _
      · simp
      · simp

theorem rounds_statistic (p : HttpGo) (hI : Inv p) (code latency : Int) (err : Option String)
    (tSince tNow : Int) :
    ∃ s, p.statistic code latency err tSince tNow = some s ∧ Inv s ∧ s.c = p.c ∧
      p.stat.elapsed ≤ s.stat.elapsed ∧
      (p.c.Count ≤ 0 → interval * (p.stat.rps.length : Int) ≤ p.stat.elapsed →
        interval * (s.stat.rps.length : Int) ≤ s.stat.elapsed) := by
  obtain ⟨s, hs, hc, hsI, -⟩ := Inv_statistic p hI code latency err tSince tNow
  by_cases hd : p.done = true
  · have := statistic_done p code latency err tSince tNow hd
    rw [hs] at this
    injection this with this
    subst this
    exact ⟨s, hs, hsI, rfl, le_refl _, fun _ h => h⟩
  · have hd' : p.done = false := by simpa using hd
    have hopen : p.doneChan.closed = false := by rw [hI.1, hd']
    obtain ⟨s1, hs1, -, -, -, -, hel, -⟩ := statistic_step p code latency err tSince tNow hd' hopen
    rw [hs] at hs1
    injection hs1 with hs1
    subst hs1
    refine ⟨s, hs, hsI, hc, hel, ?_⟩
    intro hC hle
    obtain ⟨s2, hs2, hge, hlt⟩ := round_step p hd' hopen code latency err tSince tNow (by omega)
    rw [hs] at hs2
    injection hs2 with hs2
    subst hs2
    by_cases h2 : tSince - p.startTime ≥ interval
    · obtain ⟨hr, he, -, -⟩ := hge h2
      rw [hr, he]
      simp only [List.length_append, List.length_singleton, Nat.cast_add, Nat.cast_one]
      simp only [interval, Millisecond] at h2 hle ⊢
      omega
    · obtain ⟨hr, he, -⟩ := hlt (by omega)
      rw [hr, he]; exact hle

theorem rounds_records (p : HttpGo) (hI : Inv p) (rs : List Record) :
    ∃ s, p.records rs = some s ∧ Inv s ∧ s.c = p.c ∧
      p.stat.elapsed ≤ s.stat.elapsed ∧
      (p.c.Count ≤ 0 → interval * (p.stat.rps.length : Int) ≤ p.stat.elapsed →
        interval * (s.stat.rps.length : Int) ≤ s.stat.elapsed) := by
  induction rs generalizing p with
  | nil => exact ⟨p, rfl, hI, rfl, le_refl _, fun _ h => h⟩
  | cons r rs ih =>
    obtain ⟨q, hq, hqI, hqc, hqe, hqr⟩ := rounds_statistic p hI r.code r.latency r.err r.tSince r.tNow
    obtain ⟨s, hs, hsI, hsc, hse, hsr⟩ := ih q hqI
    refine ⟨s, by simp [HttpGo.records, hq, hs], hsI, hsc.trans hqc, le_trans hqe hse, ?_⟩
    intro hC hle
    exact hsr (by rw [hqc]; exact hC) (hqr hC hle)

/-- C18. Round bookkeeping: a call of `statistic` in a state that is not done
(its channel open) and that does not hit the count-mode stop returns a state in
which, if at least 10 ms have passed since the round start, exactly one sample
`roundSuccesses / roundElapsedSeconds` is appended to the end of the RPS
samples, `elapsed` has grown by the elapsed time of the round, the round counter
is 0 and the round start is the clock value read after the flush; if less than
10 ms have passed, the RPS samples, `elapsed` and the round start are unchanged.
Consequently, over every run from the start, `elapsed` never decreases and, in
duration mode (`Count <= 0`), is at least 10 ms times the number of RPS
samples. -/
theorem round_bookkeeping (p : HttpGo) (hd : p.done = false) (hc : p.doneChan.closed = false)
    (code latency : Int) (err : Option String) (tSince tNow : Int)
    (hns : ¬ (p.c.Count > 0 ∧ p.stat.reqs + nOk err = p.c.Count))
    (c : Config) (tInit : Int) (newClient : Option String) (p0 : HttpGo)
    (h0 : (New c).init tInit newClient = .ok p0) (tRun : Int) (rs rs' : List Record) :
    (∃ s, p.statistic code latency err tSince tNow = some s ∧
      (tSince - p.startTime ≥ 10 * Millisecond →
        s.stat.rps = p.stat.rps ++
          [((p.roundReqs + nOk err : Int) : ℚ) / (((tSince - p.startTime : Int) : ℚ) / 1000000000)] ∧
        s.stat.elapsed = p.stat.elapsed + (tSince - p.startTime) ∧
        s.roundReqs = 0 ∧ s.startTime = tNow) ∧
      (tSince - p.startTime < 10 * Millisecond →
        s.stat.rps = p.stat.rps ∧ s.stat.elapsed = p.stat.elapsed ∧
        s.startTime = p.startTime)) ∧
    (∃ s s', (p0.run tRun).records rs = some s ∧ (p0.run tRun).records (rs ++ rs') = some s' ∧
      s.stat.elapsed ≤ s'.stat.elapsed ∧
      (c.Count ≤ 0 → 10 * Millisecond * (s.stat.rps.length : Int) ≤ s.stat.elapsed)) := by
  constructor
  · obtain ⟨s, hs, hge, hlt⟩ := round_step p hd hc code latency err tSince tNow hns
    refine ⟨s, hs, fun h => hge ?_, fun h => hlt ?_⟩
    · simp only [interval, Millisecond] at h ⊢; omega
    · simp only [interval, Millisecond] at h ⊢; omega
  · have hI := Inv_start c tInit newClient p0 h0 tRun
    obtain ⟨-, -, -, he, -, hcount, -, -⟩ := init_ok c tInit newClient p0 h0
    have hp := init_eq _ _ _ _ h0
    obtain ⟨s, hs, hsI, hsc, -, hsr⟩ := rounds_records _ hI rs
    obtain ⟨s', hs', -, -, hle, -⟩ := rounds_records s hsI rs'
    refine ⟨s, s', hs, ?_, hle, ?_⟩
    · rw [records_append, hs]; exact hs'
    · intro hC
      have h1 : (p0.run tRun).c.Count ≤ 0 := by
        show p0.c.Count ≤ 0
        rw [hcount]; exact hC
      have h2 : interval * ((p0.run tRun).stat.rps.length : Int) ≤ (p0.run tRun).stat.elapsed := by
        rw [hp]
        show interval * (([] : List ℚ).length : Int) ≤ 0
        simp
      have := hsr h1 h2
      simp only [interval, Millisecond] at this ⊢
      omega

theorem round_bookkeeping_witness :
    (∃ s, ((startOf cfgDuration).run 0).statistic 200 1500000 none 20000000 20000001 = some s ∧
      (20000000 - ((startOf cfgDuration).run 0).startTime ≥ 10 * Millisecond →
        s.stat.rps = ((startOf cfgDuration).run 0).stat.rps ++
          [((((startOf cfgDuration).run 0).roundReqs + nOk none : Int) : ℚ)
            / (((20000000 - ((startOf cfgDuration).run 0).startTime : Int) : ℚ) / 1000000000)] ∧
        s.stat.elapsed = ((startOf cfgDuration).run 0).stat.elapsed
          + (20000000 - ((startOf cfgDuration).run 0).startTime) ∧
        s.roundReqs = 0 ∧ s.startTime = 20000001) ∧
      (20000000 - ((startOf cfgDuration).run 0).startTime < 10 * Millisecond →
        s.stat.rps = ((startOf cfgDuration).run 0).stat.rps ∧
        s.stat.elapsed = ((startOf cfgDuration).run 0).stat.elapsed ∧
        s.startTime = ((startOf cfgDuration).run 0).startTime)) ∧
    (∃ s s', ((startOf cfgDuration).run 0).records [okAt 1000000, errAt 20000000] = some s ∧
      ((startOf cfgDuration).run 0).records ([okAt 1000000, errAt 20000000] ++ [okAt 50000000])
        = some s' ∧
      s.stat.elapsed ≤ s'.stat.elapsed ∧
      (cfgDuration.Count ≤ 0 → 10 * Millisecond * (s.stat.rps.length : Int) ≤ s.stat.elapsed)) :=
  round_bookkeeping ((startOf cfgDuration).run 0) (by rfl) (by rfl) 200 1500000 none 20000000
    20000001 (by decide) cfgDuration 0 none (startOf cfgDuration) (by rfl) 0
    [okAt 1000000, errAt 20000000] [okAt 50000000]

/-! ## Statistics -/

theorem foldl_sum_max (rps : List ℚ) (a m : ℚ) :
    rps.foldl (fun (acc : ℚ × ℚ) r => (acc.1 + r, if r > acc.2 then r else acc.2)) (a, m)
      = (a + rps.sum, rps.foldl max m) := by
  induction rps generalizing a m with
  | nil => simp
  | cons r rest ih =>
    simp only [List.foldl_cons, List.sum_cons]
    rw [ih]
    have hmax : (if r > m then r else m) = max m r := by
      rcases lt_or_le m r with h | h
      · rw [if_pos h, max_eq_right (le_of_lt h)]
      · rw [if_neg (not_lt.2 h), max_eq_left h]
    rw [hmax, add_assoc]

theorem foldl_sq (rps : List ℚ) (avg a : ℚ) :
    rps.foldl (fun acc r => acc + (avg - r) * (avg - r)) a
      = a + (rps.map fun x => (x - avg) ^ 2).sum := by
  induction rps generalizing a with
  | nil => simp
  | cons r rest ih =>
    simp only [List.foldl_cons, List.map_cons, List.sum_cons]
    rw [ih]
    ring

theorem foldl_max_ge (rps : List ℚ) (m : ℚ) :
    m ≤ rps.foldl max m ∧ ∀ x ∈ rps, x ≤ rps.foldl max m := by
  induction rps generalizing m with
  | nil => simp
  | cons r rest ih =>
    obtain ⟨h1, h2⟩ := ih (max m r)
    simp only [List.foldl_cons]
    refine ⟨le_trans (le_max_left _ _) h1, ?_⟩
    intro x hx
    rcases List.mem_cons.1 hx with h | h
    · rw [h]; exact le_trans (le_max_right _ _) h1
    · exact h2 x h

theorem foldl_max_mem (rps : List ℚ) (m : ℚ) :
    rps.foldl max m = m ∨ rps.foldl max m ∈ rps := by
  induction rps generalizing m with
  | nil => simp
  | cons r rest ih =>
    simp only [List.foldl_cons]
    rcases ih (max m r) with h | h
    · rw [h]
      rcases max_cases m r with ⟨h', -⟩ | ⟨h', -⟩
      · left; exact h'
      · right; rw [h']; exact List.mem_cons_self _ _
    · right; exact List.mem_cons_of_mem _ h

/-- The maximum kept by the loop, started at 0, is the largest sample when the
samples are non-negative and there is at least one. -/
theorem foldl_max_largest (rps : List ℚ) (hne : rps ≠ []) (hpos : ∀ x ∈ rps, 0 ≤ x) :
    rps.foldl max 0 ∈ rps ∧ ∀ x ∈ rps, x ≤ rps.foldl max 0 := by
  obtain ⟨-, h2⟩ := foldl_max_ge rps 0
  refine ⟨?_, h2⟩
  rcases foldl_max_mem rps 0 with h | h
  · obtain ⟨y, hy⟩ := List.exists_mem_of_ne_nil rps hne
    have hy0 : y = 0 := le_antisymm (by rw [← h]; exact h2 y hy) (hpos y hy)
    rw [h, ← hy0]; exact hy
  · exact h

theorem rpsResult_eq (sqrt : ℚ → ℚ) (rps : List ℚ) (hne : rps ≠ []) :
    rpsResult sqrt rps =
      (.num (rps.sum / (rps.length : ℚ)),
        fsqrt sqrt (fdiv ((rps.map fun x => (x - rps.sum / (rps.length : ℚ)) ^ 2).sum)
          ((rps.length : ℚ) - 1)),
        .num (rps.foldl max 0)) := by
  have hl : rps.length ≠ 0 := fun h => hne (List.length_eq_zero.1 h)
  unfold rpsResult
  simp only [hl, if_false, foldl_sum_max, foldl_sq, zero_add]
  push_cast
  rfl

theorem latencyResult_eq (sqrt : ℚ → ℚ) (latencies : List Int) :
    latencyResult sqrt latencies
      = rpsResult sqrt (latencies.map fun (x : Int) => (x : ℚ) / 1000) := by
  unfold latencyResult rpsResult
  simp only [List.length_map, List.foldl_map]

theorem sum_sq_nonneg (xs : List ℚ) (avg : ℚ) :
    0 ≤ (xs.map fun x => (x - avg) ^ 2).sum := by
  apply List.sum_nonneg
  intro y hy
  obtain ⟨x, -, rfl⟩ := List.mem_map.1 hy
  exact sq_nonneg _

/-- The three results of `rpsResult` on non-negative samples. -/
theorem rpsResult_spec (sqrt : ℚ → ℚ) (rps : List ℚ) (hne : rps ≠ [])
    (hpos : ∀ x ∈ rps, 0 ≤ x) :
    (rpsResult sqrt rps).1 = .num (rps.sum / (rps.length : ℚ)) ∧
    (∃ m, (rpsResult sqrt rps).2.2 = .num m ∧ m ∈ rps ∧ ∀ x ∈ rps, x ≤ m) ∧
    (2 ≤ rps.length →
      (rpsResult sqrt rps).2.1 =
        .num (sqrt ((rps.map fun x => (x - rps.sum / (rps.length : ℚ)) ^ 2).sum
          / ((rps.length : ℚ) - 1)))) := by
  rw [rpsResult_eq sqrt rps hne]
  refine ⟨rfl, ⟨_, rfl, foldl_max_largest rps hne hpos⟩, ?_⟩
  intro h2
  have hN : (rps.length : ℚ) - 1 ≠ 0 := by
    have : (2 : ℚ) ≤ (rps.length : ℚ) := by exact_mod_cast h2
    intro h; linarith
  have hNpos : (0 : ℚ) ≤ (rps.length : ℚ) - 1 := by
    have : (2 : ℚ) ≤ (rps.length : ℚ) := by exact_mod_cast h2
    linarith
  have hnn : ¬ (rps.map fun x => (x - rps.sum / (rps.length : ℚ)) ^ 2).sum
      / ((rps.length : ℚ) - 1) < 0 :=
    not_lt.2 (div_nonneg (sum_sq_nonneg _ _) hNpos)
  simp only [fdiv, hN, ne_eq, not_false_eq_true, if_true, fsqrt, if_neg hnn]

/-- C12. Statistics formulas: for a non-empty sequence of non-negative samples,
`rpsResult` returns `avg = sum / N`, `max` = the largest sample and, for
`N >= 2`, `stdev = sqrt(sum((x - avg)^2) / (N - 1))`; `latencyResult` returns the
same of the samples divided by 1000 (microseconds to milliseconds), so that the
latencies 10000, 20000, 30000 give avg 20, stdev 10 and max 30 (with
`sqrt 100 = 10`). -/
theorem statistics_formulas (sqrt : ℚ → ℚ) (hsq : sqrt 100 = 10)
    (rps : List ℚ) (hne : rps ≠ []) (hpos : ∀ x ∈ rps, 0 ≤ x)
    (latencies : List Int) (hlne : latencies ≠ []) (hlpos : ∀ x ∈ latencies, 0 ≤ x) :
    ((rpsResult sqrt rps).1 = .num (rps.sum / (rps.length : ℚ)) ∧
      (∃ m, (rpsResult sqrt rps).2.2 = .num m ∧ m ∈ rps ∧ ∀ x ∈ rps, x ≤ m) ∧
      (2 ≤ rps.length →
        (rpsResult sqrt rps).2.1 =
          .num (sqrt ((rps.map fun x => (x - rps.sum / (rps.length : ℚ)) ^ 2).sum
            / ((rps.length : ℚ) - 1))))) ∧
    ((latencyResult sqrt latencies).1
        = .num ((latencies.map fun (x : Int) => (x : ℚ) / 1000).sum / (latencies.length : ℚ)) ∧
      (∃ m, (latencyResult sqrt latencies).2.2 = .num m ∧
        m ∈ (latencies.map fun (x : Int) => (x : ℚ) / 1000) ∧
        ∀ x ∈ latencies, (x : ℚ) / 1000 ≤ m) ∧
      (2 ≤ latencies.length →
        (latencyResult sqrt latencies).2.1 =
          .num (sqrt ((latencies.map fun (x : Int) =>
              ((x : ℚ) / 1000
                - (latencies.map fun (y : Int) => (y : ℚ) / 1000).sum / (latencies.length : ℚ)) ^ 2).sum
            / ((latencies.length : ℚ) - 1))))) ∧
    latencyResult sqrt [10000, 20000, 30000] = (.num 20, .num 10, .num 30) := by
  refine ⟨rpsResult_spec sqrt rps hne hpos, ?_, ?_⟩
  · have hne' : (latencies.map fun (x : Int) => (x : ℚ) / 1000) ≠ [] := by
      simpa using hlne
    have hpos' : ∀ x ∈ (latencies.map fun (x : Int) => (x : ℚ) / 1000), 0 ≤ x := by
      intro x hx
      obtain ⟨y, hy, rfl⟩ := List.mem_map.1 hx
      have : (0 : ℚ) ≤ (y : ℚ) := by exact_mod_cast hlpos y hy
      positivity
    obtain ⟨h1, ⟨m, hm, hmem, hmax⟩, h3⟩ := rpsResult_spec sqrt _ hne' hpos'
    rw [latencyResult_eq]
    simp only [List.length_map] at h1 h3
    refine ⟨h1, ⟨m, hm, hmem, ?_⟩, ?_⟩
    · intro x hx
      exact hmax _ (List.mem_map.2 ⟨x, hx, rfl⟩)
    · intro h2
      rw [h3 h2]
      simp only [List.map_map]
      rfl
  · rw [latencyResult_eq, rpsResult_eq _ _ (by simp)]
    have e : (fdiv ((List.map (fun (x : ℚ) => (x - (List.map (fun (x : Int) => (x : ℚ) / 1000)
        [10000, 20000, 30000]).sum / ((List.map (fun (x : Int) => (x : ℚ) / 1000)
        [10000, 20000, 30000]).length : ℚ)) ^ 2)
        (List.map (fun (x : Int) => (x : ℚ) / 1000) [10000, 20000, 30000])).sum)
        (((List.map (fun (x : Int) => (x : ℚ) / 1000) [10000, 20000, 30000]).length : ℚ) - 1))
        = .num 100 := by
      simp [fdiv]
      norm_num
    rw [e]
    simp only [fsqrt, hsq]
    norm_num

theorem ratSqrt_hundred : ratSqrt 100 = 10 := by
  have h1 : (100 : ℚ).num = 100 := rfl
  have h2 : (100 : ℚ).den = 1 := rfl
  have h3 : Nat.sqrt 100 = 10 := by
    have := Nat.sqrt_eq' 10
    simpa using this
  unfold ratSqrt
  rw [h1, h2]
  simp [h3]

theorem statistics_formulas_witness :
    ratSqrt 100 = 10 ∧
    ((rpsResult ratSqrt [100, 300]).1 = .num (([100, 300] : List ℚ).sum / (([100, 300] : List ℚ).length : ℚ)) ∧
      (∃ m, (rpsResult ratSqrt [100, 300]).2.2 = .num m ∧ m ∈ ([100, 300] : List ℚ) ∧
        ∀ x ∈ ([100, 300] : List ℚ), x ≤ m) ∧
      (2 ≤ ([100, 300] : List ℚ).length →
        (rpsResult ratSqrt [100, 300]).2.1 =
          .num (ratSqrt ((([100, 300] : List ℚ).map fun x =>
              (x - ([100, 300] : List ℚ).sum / (([100, 300] : List ℚ).length : ℚ)) ^ 2).sum
            / ((([100, 300] : List ℚ).length : ℚ) - 1))))) ∧
    latencyResult ratSqrt [10000, 20000, 30000] = (.num 20, .num 10, .num 30) :=
  ⟨ratSqrt_hundred,
    (statistics_formulas ratSqrt ratSqrt_hundred [100, 300] (by simp) (by simp)
      [10000, 20000, 30000] (by simp) (by simp)).1,
    (statistics_formulas ratSqrt ratSqrt_hundred [100, 300] (by simp) (by simp)
      [10000, 20000, 30000] (by simp) (by simp)).2.2⟩

/-- C13 fails on the code for a single sample: with `N = 1` the division by
`float64(l-1)` is `0 / 0`, so `rpsResult` and `latencyResult` return the stdev
NaN, not 0, whatever the sample; only the empty sequence gives 0. -/
theorem stdev_single_sample (sqrt : ℚ → ℚ) (r : ℚ) (latency : Int) :
    (rpsResult sqrt [r]).2.1 = .nan ∧ (latencyResult sqrt [latency]).2.1 = .nan ∧
    (rpsResult sqrt []).2.1 = .num 0 ∧ (latencyResult sqrt []).2.1 = .num 0 ∧
    (rpsResult ratSqrt [5]).2.1 = .nan ∧ (latencyResult ratSqrt [1500]).2.1 = .nan := by
  have h : ∀ (f : ℚ → ℚ) (x : ℚ), (rpsResult f [x]).2.1 = .nan := by
    intro f x
    rw [rpsResult_eq f [x] (by simp)]
    simp [fdiv, fsqrt]
  refine ⟨h sqrt r, ?_, rfl, rfl, h ratSqrt 5, ?_⟩
  · rw [latencyResult_eq]; exact h sqrt _
  · rw [latencyResult_eq]; exact h ratSqrt _

/-! ## Progress and throughput -/

/-- In count mode and with a count of 0 the fraction is the clamped quotient. -/
theorem writeProcessBar_spec (t : stat) :
    (t.count > 0 → t.writeProcessBar = min 1 ((t.reqs : ℚ) / (t.count : ℚ))) ∧
    (t.count = 0 → t.writeProcessBar = min 1 ((t.elapsed : ℚ) / (t.duration : ℚ))) ∧
    (t.count < 0 → t.writeProcessBar = min 1 ((t.reqs : ℚ) / (t.count : ℚ))) ∧
    t.writeProcessBar ≤ 1 := by
  have hmin : ∀ x : ℚ, (if x > 1 then 1 else x) = min 1 x := by
    intro x
    rcases lt_or_le 1 x with h | h
    · rw [if_pos h, min_eq_left (le_of_lt h)]
    · rw [if_neg (not_lt.2 h), min_eq_right h]
  unfold stat.writeProcessBar
  simp only [hmin]
  refine ⟨?_, ?_, ?_, min_le_left _ _⟩
  · intro h; rw [if_pos (by omega)]
  · intro h; rw [if_neg (by simpa using h)]
  · intro h; rw [if_pos (by omega)]

/-- C14 fails on the code for a negative count: with `Count = -1` and a duration
of 200 ms the engine runs in duration mode (the run is not done after one
success 150 ms in, with `elapsed = 150 ms`), but `writeProcessBar` takes the
count branch and computes `1 / -1 = -1` instead of `min 1 (150/200) = 3/4`. -/
theorem progress_negative_count :
    (New cfgNegative).init 0 none = .ok (startOf cfgNegative) ∧
    ∃ s, ((startOf cfgNegative).run 0).records [okAt 150000000] = some s ∧
      s.done = false ∧ s.stat.writeProcessBar = -1 ∧
      min 1 ((s.stat.elapsed : ℚ) / (s.stat.duration : ℚ)) = 3 / 4 := by
  refine ⟨by rfl, ?_⟩
  have hf : (((startOf cfgNegative).run 0).records [okAt 150000000]).map
      (fun s => (s.done, s.stat.reqs, s.stat.elapsed, s.stat.count, s.stat.duration))
      = some (false, 1, 150000000, -1, 200000000) := by decide
  cases hrec : ((startOf cfgNegative).run 0).records [okAt 150000000] with
  | none => rw [hrec] at hf; exact absurd hf (by simp)
  | some s =>
    rw [hrec] at hf
    simp only [Option.map_some', Option.some.injEq, Prod.mk.injEq] at hf
    obtain ⟨h1, h2, h3, h4, h5⟩ := hf
    refine ⟨s, rfl, h1, ?_, ?_⟩
    · unfold stat.writeProcessBar
      rw [h2, h4]
      norm_num
    · rw [h3, h5]
      norm_num

/-- C15. Throughput unit scaling: `formatThroughput x` is `(x, B/s)` below 1e3,
`(x/1e3, KB/s)` from 1e3 below 1e6, `(x/1e6, MB/s)` from 1e6 below 1e9 and
`(x/1e9, GB/s)` from 1e9 on; the returned value times the multiplier of the unit
is `x`, and the returned value is below 1000 whenever `x < 1e12`. This holds for
every `x`, in particular for `x >= 0`. -/
theorem throughput_scaling (x : ℚ) :
    (x < 1000 → formatThroughput x = (x, "B/s")) ∧
    (1000 ≤ x → x < 1000000 → formatThroughput x = (x / 1000, "KB/s")) ∧
    (1000000 ≤ x → x < 1000000000 → formatThroughput x = (x / 1000000, "MB/s")) ∧
    (1000000000 ≤ x → formatThroughput x = (x / 1000000000, "GB/s")) ∧
    (formatThroughput x).1 * unitMultiplier (formatThroughput x).2 = x ∧
    (x < 1000000000000 → (formatThroughput x).1 < 1000) ∧
    formatThroughput 500 = (500, "B/s") ∧ formatThroughput 1500 = (3 / 2, "KB/s") ∧
    formatThroughput 2500000 = (5 / 2, "MB/s") ∧ formatThroughput 3000000000 = (3, "GB/s") := by
  refine ⟨?_, ?_, ?_, ?_, ?_, ?_, ?_, ?_, ?_, ?_⟩
  · intro h; simp [formatThroughput, h]
  · intro h1 h2; simp [formatThroughput, not_lt.2 h1, h2]
  · intro h1 h2
    have h0 : ¬ x < 1000 := not_lt.2 (by linarith)
    simp [formatThroughput, h0, not_lt.2 h1, h2]
  · intro h1
    have h0 : ¬ x < 1000 := not_lt.2 (by linarith)
    have h0' : ¬ x < 1000000 := not_lt.2 (by linarith)
    simp [formatThroughput, h0, h0', not_lt.2 h1]
  · unfold formatThroughput
    split_ifs <;> simp [unitMultiplier]
  · intro h
    unfold formatThroughput
    split_ifs with a b c
    · exact a
    · show x / 1000 < 1000
      linarith
    · show x / 1000000 < 1000
      linarith
    · show x / 1000000000 < 1000
      linarith
  · norm_num [formatThroughput]
  · norm_num [formatThroughput]
  · norm_num [formatThroughput]
  · norm_num [formatThroughput]

/-! ## QPS and the request count -/

/-- C16 fails on the code: with `Qps = 5`, `Count = 2` and a duration of 10 s the
run is ended by the second success, with no elapsed time accumulated, and the
progress fraction is `reqs / Count = 1`; the count is not ignored. -/
theorem qps_keeps_count :
    (New cfgQps).init 0 none = .ok startQps ∧ cfgQps.Qps > 0 ∧
    ((startQps.run 0).records [okAt 1]).map (fun s => (s.done, s.stat.reqs)) = some (false, 1) ∧
    ∃ s, (startQps.run 0).records [okAt 1, okAt 2] = some s ∧
      s.done = true ∧ s.stat.reqs = 2 ∧ s.stat.elapsed = 0 ∧ s.stat.elapsed < s.c.Duration ∧
      s.stat.writeProcessBar = 1 := by
  refine ⟨by rfl, by decide, by decide, ?_⟩
  have hf : ((startQps.run 0).records [okAt 1, okAt 2]).map
      (fun s => (s.done, s.stat.reqs, s.stat.elapsed, s.c.Duration, s.stat.count))
      = some (true, 2, 0, 10000000000, 2) := by decide
  cases hrec : (startQps.run 0).records [okAt 1, okAt 2] with
  | none => rw [hrec] at hf; exact absurd hf (by simp)
  | some s =>
    rw [hrec] at hf
    simp only [Option.map_some', Option.some.injEq, Prod.mk.injEq] at hf
    obtain ⟨h1, h2, h3, h4, h5⟩ := hf
    refine ⟨s, rfl, h1, h2, h3, by rw [h3, h4]; decide, ?_⟩
    unfold stat.writeProcessBar
    rw [h2, h5]
    norm_num

/-! ## JSON value coercion -/

theorem needQuote_of_lower (Atoi ParseFloat : String → Bool) (v : String)
    (h : ToLower v = "false".data ∨ ToLower v = "true".data) :
    needQuote Atoi ParseFloat v = false := by
  unfold needQuote
  rw [if_pos h]

/-- C17 fails on the code: `TRUE` is not the literal `true` or `false`, yet
`needQuote` is false for it whatever `strconv.Atoi` and `strconv.ParseFloat`
answer, because the comparison is made on the lowered value; the argument
`k:=TRUE` is emitted unquoted, and the body built for it is `{"k":TRUE}`, which
is not JSON. -/
theorem needQuote_upper_true (Atoi ParseFloat : String → Bool) :
    needQuote Atoi ParseFloat "TRUE" = false ∧
    "TRUE" ≠ "true" ∧ "TRUE" ≠ "false" ∧
    buildJSONBody Atoi ParseFloat [] ["k:=TRUE"] = "\x7b\x22k\x22:TRUE\x7d".data := by
  have hq : needQuote Atoi ParseFloat "TRUE" = false :=
    needQuote_of_lower Atoi ParseFloat "TRUE" (Or.inr (by decide))
  have hcut : cutAssign "k:=TRUE".data = some ("k".data, "TRUE".data) := by decide
  have hk : TrimSpace "k".data = "k".data := by decide
  have hv : TrimSpace "TRUE".data = "TRUE".data := by decide
  have hmk : String.mk "TRUE".data = "TRUE" := rfl
  refine ⟨hq, by decide, by decide, ?_⟩
  have hne : ("k:=TRUE" : String) ≠ "" := by decide
  have hkne : ("k".data : List Char) ≠ [] := by decide
  unfold buildJSONBody
  simp only [buildJSONArgs, hne, if_false, hcut, hk, hv, hkne, hmk, hq, Bool.false_eq_true]
  decide

end Httpgo
